import Mathlib

/-!
# Dendrite: the record-extraction engine (`parser.go`) and the encoders (`encoder.go`)

A shallow embedding of `NewRegexpParser` and `RegexpParser.Consume`, and of
the encoders of `encoder.go`.

Conventions of the embedding

* A Go byte is modelled by a `Char` and a Go `string` by a `String`; a `[]byte`
  is a `List Char`.  Nothing below depends on the size of the alphabet.
* `int` values (`len`, indices, `Group`, `maxLineSize`) are mathematical
  integers.  The shared `*int64` counter is a mathematical integer kept in the
  signed 64-bit range by `wrapInt64` at every `atomic.AddInt64`.
* The standard library (`regexp`, `time.Parse`, `strconv`, `crypto/sha1`,
  `encoding/base64`) and the package-level `StandardTimeProvider` are
  parameters, collected in `Lib`.
* A Go panic is a `Fault`; the unbounded `for` loop of `Consume` is run with
  fuel, and an `Outcome` says whether the call returned, panicked or is still
  looping, together with the state reached.
-/

namespace Dendrite

/-- One byte of input. -/
abbrev Byte := Char

/-! ## Data model -/

/-- Modelled from the spec: the `FieldType` constants, whose declaration
(`config.go`) is not part of the sources at hand.  The source's `Tokens`, when
written in the type position of a `Column`, is `TokenList`. -/
inductive FieldType where
  | String
  | Integer
  | Double
  | Timestamp
  | TokenList
  deriving DecidableEq

/-- Modelled from the spec: the `FieldTreatment` constants (`config.go`).
`Simple` is the zero value. -/
inductive FieldTreatment where
  | Simple
  | Gauge
  | Metric
  | Counter
  | Tokens
  | Hash
  deriving DecidableEq

/-- A `float64`, kept as its IEEE-754 bit pattern; its arithmetic is not modelled. -/
structure Float64 where
  bits : Nat
  deriving DecidableEq

/-- The dynamic value of a `Column` (Go `interface{}`), by concrete kind. -/
inductive Value where
  | string (s : String)
  | int64 (n : Int)
  | float64 (x : Float64)
  | strings (l : List String)
  deriving DecidableEq

/-- `type Column struct { Type; Treatment; Value }`. -/
structure Column where
  Typ : FieldType
  Treatment : FieldTreatment
  Value : Value
  deriving DecidableEq

/-- `type Record map[string]Column`: an association list with unique keys. -/
abbrev Record := List (String × Column)

/-- `out[k]`: lookup. -/
def Record.get (r : Record) (k : String) : Option Column :=
  match r with
  | [] => none
  | (k', c) :: rest => if k' = k then some c else Record.get rest k

/-- `out[k] = c`: overwrite the entry of `k`, or add one. -/
def Record.set (r : Record) (k : String) (c : Column) : Record :=
  match r with
  | [] => [(k, c)]
  | (k', c') :: rest => if k' = k then (k, c) :: rest else (k', c') :: Record.set rest k c

/-- A `time.Time`: an instant (seconds and nanoseconds since the Unix epoch)
with the offset east of UTC, in seconds, of its fixed-zone `Location`. -/
structure Time where
  unix : Int
  nsec : Int
  loc : Int
  deriving DecidableEq

/-- A compiled `*regexp.Regexp`, by the two methods the parser calls. -/
structure Regexp where
  SubexpNames : List String
  FindSubmatchIndex : List Byte → Option (List Int)

/-- Modelled from the spec: `FieldConfig` (`config.go`), with the field names
the parser uses.  `Pattern` is the token pattern's `FindAllString(s, -1)`,
`none` for a nil pointer. -/
structure FieldConfig where
  Name : String
  Alias : String
  Group : Int
  Typ : FieldType
  Treatment : FieldTreatment
  Format : String
  Pattern : Option (String → List String)
  Salt : String

/-- The zero value `var spec FieldConfig`. -/
def FieldConfig.zero : FieldConfig where
  Name := ""
  Alias := ""
  Group := 0
  Typ := FieldType.String
  Treatment := FieldTreatment.Simple
  Format := ""
  Pattern := none
  Salt := ""

/-- `type RegexpParser struct`; `output` is the content of the channel, oldest
record first. -/
structure RegexpParser where
  group : String
  compiled : Regexp
  output : List Record
  buffer : List Byte
  fields : List FieldConfig
  file : String
  hostname : String
  maxLineSize : Int

/-- The library functions and the time provider the parser depends on. -/
structure Lib where
  /-- `regexp.Compile`, `none` on error. -/
  compile : String → Option Regexp
  /-- `time.Parse(layout, value)`, `none` on error. -/
  parseTime : String → String → Option Time
  /-- `strconv.ParseInt(s, 10, 64)`, `none` on error. -/
  parseInt : String → Option Int
  /-- `strconv.ParseFloat(s, 64)`, `none` on error. -/
  parseFloat : String → Option Float64
  /-- The SHA-1 digest of a byte sequence. -/
  sha1 : List Byte → List Byte
  /-- `base64.URLEncoding.EncodeToString`. -/
  base64URL : List Byte → String
  /-- `StandardTimeProvider.Now()`: the reading returned by the n-th call. -/
  clock : Nat → Time

/-- The ways `Consume`, `NewRegexpParser` and the encoders can panic. -/
inductive Fault where
  /-- `panic(err)` after `regexp.Compile` failed. -/
  | compileError
  /-- `panic(-1)` after the "spec group out of range" diagnostic. -/
  | groupOutOfRange
  /-- `panic(nil)` in the `default` case of the type switch. -/
  | unknownType
  /-- Run-time panic: index out of range. -/
  | indexOutOfRange
  /-- Run-time panic: slice bounds out of range. -/
  | sliceOutOfRange
  /-- Run-time panic: nil pointer dereference. -/
  | nilDereference
  /-- Run-time panic: failed type assertion (interface conversion). -/
  | typeAssertion
  /-- `panic(err)` after `json.Marshal` failed. -/
  | marshalError
  deriving DecidableEq

/-- What the parser owns or shares while it runs: itself, the shared counter,
and the number of clock readings taken so far. -/
structure World where
  parser : RegexpParser
  counter : Int
  ticks : Nat

/-- The result of running `Consume` with some fuel, with the state reached. -/
inductive Outcome where
  /-- The call returned. -/
  | returned (w : World)
  /-- The call panicked; `w` is the state reached (see `matchStep`). -/
  | panicked (f : Fault) (w : World)
  /-- The fuel ran out while the loop still had a match to process. -/
  | running (w : World)

/-- Whether the fuel ran out with a match still to process. -/
def Outcome.isRunning : Outcome → Bool
  | .running _ => true
  | _ => false

/-- Whether the call returned. -/
def Outcome.isReturned : Outcome → Bool
  | .returned _ => true
  | _ => false

/-- The panic of the call, if it panicked. -/
def Outcome.fault : Outcome → Option Fault
  | .panicked f _ => some f
  | _ => none

/-- The state carried by an outcome. -/
def Outcome.world : Outcome → World
  | .returned w => w
  | .panicked _ w => w
  | .running w => w

/-! ## Machine arithmetic, indexing, slicing -/

/-- Two's-complement reduction to the signed 64-bit range. -/
def wrapInt64 (x : Int) : Int :=
  (x + 9223372036854775808) % 18446744073709551616 - 9223372036854775808

/-- `atomic.AddInt64(counter, delta)`: the new value of the counter. -/
def AddInt64 (counter delta : Int) : Int :=
  wrapInt64 (counter + delta)

/-- `m[i]` on a slice of ints. -/
def index (m : List Int) (i : Int) : Except Fault Int :=
  if i < 0 then .error .indexOutOfRange
  else match m[i.toNat]? with
    | some v => .ok v
    | none => .error .indexOutOfRange

/-- `b[lo:hi]`; the bounds are checked against the length of `b` (capacity is
not modelled). -/
def slice (b : List Byte) (lo hi : Int) : Except Fault (List Byte) :=
  if 0 ≤ lo ∧ lo ≤ hi ∧ hi ≤ b.length then
    .ok ((b.drop lo.toNat).take (hi.toNat - lo.toNat))
  else .error .sliceOutOfRange

/-- `b[lo:]`. -/
def sliceFrom (b : List Byte) (lo : Int) : Except Fault (List Byte) :=
  if 0 ≤ lo ∧ lo ≤ b.length then .ok (b.drop lo.toNat)
  else .error .sliceOutOfRange

/-! ## The `time` package, for fixed-zone locations -/

/-- The civil date (year, month, day) of a day number counted from 1970-01-01,
in the proleptic Gregorian calendar. -/
def civil (day : Int) : Int × Int × Int :=
  let z := day + 719468
  let era := z / 146097
  let doe := z % 146097
  let yoe := (doe - doe / 1460 + doe / 36524 - doe / 146096) / 365
  let doy := doe - (365 * yoe + yoe / 4 - yoe / 100)
  let mp := (5 * doy + 2) / 153
  let d := doy - (153 * mp + 2) / 5 + 1
  let m := if mp < 10 then mp + 3 else mp - 9
  (yoe + era * 400 + (if m ≤ 2 then 1 else 0), m, d)

/-- `t.Year()`. -/
def Time.Year (t : Time) : Int := (civil ((t.unix + t.loc) / 86400)).1

/-- `t.Month()`, January = 1. -/
def Time.Month (t : Time) : Int := (civil ((t.unix + t.loc) / 86400)).2.1

/-- `t.Day()`. -/
def Time.Day (t : Time) : Int := (civil ((t.unix + t.loc) / 86400)).2.2

/-- `t.Hour()`. -/
def Time.Hour (t : Time) : Int := (t.unix + t.loc) % 86400 / 3600

/-- `t.Minute()`. -/
def Time.Minute (t : Time) : Int := (t.unix + t.loc) % 3600 / 60

/-- `t.Second()`. -/
def Time.Second (t : Time) : Int := (t.unix + t.loc) % 60

/-- `t.Nanosecond()`. -/
def Time.Nanosecond (t : Time) : Int := t.nsec

/-- `t.Location()`. -/
def Time.Location (t : Time) : Int := t.loc

/-- `t.Unix()`. -/
def Time.Unix (t : Time) : Int := t.unix

/-- `t.After(u)`: the instant `t` is strictly later than `u`. -/
def Time.After (t u : Time) : Bool :=
  decide (t.unix > u.unix ∨ (t.unix = u.unix ∧ t.nsec > u.nsec))

/-- Leap years of the Gregorian calendar. -/
def isLeap (year : Int) : Bool :=
  decide (year % 4 = 0 ∧ (year % 100 ≠ 0 ∨ year % 400 = 0))

/-- Days of a non-leap year before the first of each month. -/
def daysBefore (month : Int) : Int :=
  [0, 31, 59, 90, 120, 151, 181, 212, 243, 273, 304, 334].getD (month - 1).toNat 365

/-- Days from 1970-01-01 to the first of January of `year`. -/
def daysSinceEpoch (year : Int) : Int :=
  365 * (year - 1970) + ((year - 1) / 4 - (year - 1) / 100 + (year - 1) / 400) - 477

/-- `time.Date(year, month, day, hour, min, sec, nsec, loc)`: out-of-range
values are normalised by carrying into the next unit, a day past the end of
its month runs into the next month. -/
def Date (year month day hour min sec nsec : Int) (loc : Int) : Time :=
  let m := month - 1
  let year := year + m / 12
  let month := m % 12 + 1
  let sec := sec + nsec / 1000000000
  let nsec := nsec % 1000000000
  let min := min + sec / 60
  let sec := sec % 60
  let hour := hour + min / 60
  let min := min % 60
  let day := day + hour / 24
  let hour := hour % 24
  let d := daysSinceEpoch year + daysBefore month
    + (if isLeap year ∧ month ≥ 3 then 1 else 0) + (day - 1)
  { unix := d * 86400 + hour * 3600 + min * 60 + sec - loc, nsec := nsec, loc := loc }

/-! ## `NewRegexpParser` -/

/-- The value of `spec.Name` after `if spec.Name == "" { spec.Name = spec.Alias }`:
the name under which a field is looked up among the capture names. -/
def FieldConfig.specName (spec : FieldConfig) : String :=
  if spec.Name = "" then spec.Alias else spec.Name

/-- The inner loop `for n, spec := range fields` of `NewRegexpParser` for the
capture `name` at position `i`: the fields with `Group` rebound where the name
matches, and the final value of `found`. -/
def bindLoop (i : Int) (name : String) :
    List FieldConfig → Bool → List FieldConfig × Bool
  | [], found => ([], found)
  | spec :: rest, found =>
    if name = spec.specName then
      let r := bindLoop i name rest true
      ({ spec with Group := i } :: r.1, r.2)
    else
      let r := bindLoop i name rest found
      (spec :: r.1, r.2)

/-- The field `NewRegexpParser` generates for a capture no field names. -/
def autoField (i : Int) (name : String) : FieldConfig :=
  { FieldConfig.zero with Group := i, Alias := name, Typ := FieldType.String }

/-- The outer loop `for i, name := range re.SubexpNames()`, from position `i`. -/
def resolveLoop : Int → List String → List FieldConfig → List FieldConfig
  | _, [], fields => fields
  | i, name :: names, fields =>
    if name ≠ "" then
      let r := bindLoop i name fields false
      if !r.2 then
        resolveLoop (i + 1) names (r.1 ++ [autoField i name])
      else resolveLoop (i + 1) names r.1
    else resolveLoop (i + 1) names fields

/-- `NewRegexpParser`; the result is the parser, or the panic on a pattern
that does not compile. -/
def NewRegexpParser (lib : Lib) (hostname group file : String) (output : List Record)
    (pattern : String) (fields : List FieldConfig) (maxLineSize : Int) :
    Except Fault RegexpParser :=
  match lib.compile pattern with
  | none => .error .compileError
  | some re =>
    .ok { group := group, compiled := re, output := output, buffer := [],
          fields := resolveLoop 0 re.SubexpNames fields, file := file,
          hostname := hostname, maxLineSize := maxLineSize }

/-! ## `Consume` -/

/-- The state of the loop over the fields of one match: the record under
construction, the bytes written to `hasher` since its last reset, and the
number of clock readings taken. -/
structure FieldState where
  out : Record
  hasher : List Byte
  ticks : Nat

/-- `hasher.Reset()`: the hasher state is the sequence of bytes written since
the last reset. -/
def hashReset (_h : List Byte) : List Byte := []

/-- `hasher.Write(bs)`. -/
def hashWrite (h bs : List Byte) : List Byte := h ++ bs

/-- `hasher.Sum(nil)`: the digest of everything written since the last reset. -/
def hashSum (lib : Lib) (h : List Byte) : List Byte := lib.sha1 h

/-- The year inference applied to a parsed timestamp `t` (the `if t.Year() == 0`
block), `now` being the reading of the clock. -/
def inferYear (now t : Time) : Time :=
  if t.Year = 0 then
    let adjusted := Date now.Year t.Month t.Day t.Hour t.Minute t.Second t.Nanosecond t.Location
    if adjusted.After now then
      Date (now.Year - 1) t.Month t.Day t.Hour t.Minute t.Second t.Nanosecond t.Location
    else adjusted
  else t

/-- The body of `for _, spec := range parser.fields` for one field. -/
def fieldStep (lib : Lib) (buffer : List Byte) (m : List Int) (st : FieldState)
    (spec : FieldConfig) : Except Fault FieldState :=
  let g := spec.Group
  if g < 0 ∨ g > (m.length : Int) / 2 then .error .groupOutOfRange
  else match index m (g * 2) with
  | .error f => .error f
  | .ok lo =>
    if lo = -1 then .ok st
    else match index m (g * 2 + 1) with
    | .error f => .error f
    | .ok hi =>
      match slice buffer lo hi with
      | .error f => .error f
      | .ok bs =>
        let s := String.mk bs
        match spec.Typ with
        | .Timestamp =>
          match lib.parseTime spec.Format s with
          | none => .ok st
          | some t =>
            if t.Year = 0 then
              .ok { st with
                    out := st.out.set spec.Alias
                      ⟨.Timestamp, spec.Treatment, .int64 (inferYear (lib.clock st.ticks) t).Unix⟩,
                    ticks := st.ticks + 1 }
            else
              .ok { st with
                    out := st.out.set spec.Alias ⟨.Timestamp, spec.Treatment, .int64 t.Unix⟩ }
        | .String =>
          if spec.Treatment = .Tokens then
            match spec.Pattern with
            | none => .error .nilDereference
            | some findAllString =>
              .ok { st with
                    out := st.out.set spec.Alias
                      ⟨.TokenList, spec.Treatment, .strings (findAllString s)⟩ }
          else if spec.Treatment = .Hash then
            let h := hashWrite (hashWrite (hashReset st.hasher) spec.Salt.data) s.data
            let sha := lib.base64URL (hashSum lib h)
            .ok { st with
                  out := st.out.set spec.Alias ⟨.TokenList, spec.Treatment, .string sha⟩,
                  hasher := h }
          else
            .ok { st with out := st.out.set spec.Alias ⟨.String, spec.Treatment, .string s⟩ }
        | .Integer =>
          match lib.parseInt s with
          | some n => .ok { st with out := st.out.set spec.Alias ⟨spec.Typ, spec.Treatment, .int64 n⟩ }
          | none => .ok st
        | .Double =>
          match lib.parseFloat s with
          | some x => .ok { st with out := st.out.set spec.Alias ⟨spec.Typ, spec.Treatment, .float64 x⟩ }
          | none => .ok st
        | .TokenList => .error .unknownType

/-- The loop `for _, spec := range parser.fields`. -/
def fieldLoop (lib : Lib) (buffer : List Byte) (m : List Int) :
    FieldState → List FieldConfig → Except Fault FieldState
  | st, [] => .ok st
  | st, spec :: rest =>
    match fieldStep lib buffer m st spec with
    | .error f => .error f
    | .ok st' => fieldLoop lib buffer m st' rest

/-- The record as it is before the field loop: the five synthetic columns. -/
def synthetic (lib : Lib) (w : World) : Record :=
  ((((Record.set [] "_offset" ⟨.Integer, .Simple, .int64 w.counter⟩).set
    "_file" ⟨.String, .Simple, .string w.parser.file⟩).set
    "_time" ⟨.Timestamp, .Simple, .int64 (lib.clock w.ticks).Unix⟩).set
    "_group" ⟨.String, .Simple, .string w.parser.group⟩).set
    "_hostname" ⟨.String, .Simple, .string w.parser.hostname⟩

/-- One iteration of the `for` loop of `Consume` once a match `m` is found:
build the record, send it, advance the counter, trim the buffer.  A panic
comes with the state reached (clock readings of the iteration apart). -/
def matchStep (lib : Lib) (w : World) (m : List Int) : Except (Fault × World) World :=
  match fieldLoop lib w.parser.buffer m ⟨synthetic lib w, [], w.ticks + 1⟩ w.parser.fields with
  | .error f => .error (f, w)
  | .ok st =>
    let sent : World := { w with parser := { w.parser with output := w.parser.output ++ [st.out] } }
    match index m 1 with
    | .error f => .error (f, sent)
    | .ok e =>
      let counted : World := { sent with counter := AddInt64 sent.counter e }
      match sliceFrom w.parser.buffer e with
      | .error f => .error (f, counted)
      | .ok b =>
        .ok { parser := { counted.parser with buffer := b }, counter := counted.counter,
              ticks := st.ticks }

/-- The `for` loop of `Consume`, at most `fuel` iterations that find a match. -/
def matchLoop (lib : Lib) : Nat → World → Outcome
  | fuel, w =>
    match w.parser.compiled.FindSubmatchIndex w.parser.buffer with
    | none => .returned w
    | some m =>
      match fuel with
      | 0 => .running w
      | fuel + 1 =>
        match matchStep lib w m with
        | .error (f, w') => .panicked f w'
        | .ok w' => matchLoop lib fuel w'

/-- The first part of `Consume`, up to the `for` loop: append the chunk, then
apply the overflow policy.  The result is the state presented to the first
match attempt, or the panic of the slice expression with the state reached. -/
def appendChunk (w : World) (bytes : List Byte) : Except (Fault × World) World :=
  let buffer := w.parser.buffer ++ bytes
  let l : Int := buffer.length
  if l > w.parser.maxLineSize then
    let off := l - w.parser.maxLineSize
    let counter := AddInt64 w.counter off
    match sliceFrom buffer off with
    | .error f =>
      .error (f, { w with parser := { w.parser with buffer := buffer }, counter := counter })
    | .ok b =>
      .ok { w with parser := { w.parser with buffer := b }, counter := counter }
  else
    .ok { w with parser := { w.parser with buffer := buffer } }

/-- `parser.Consume(bytes, counter)`. -/
def Consume (lib : Lib) (fuel : Nat) (w : World) (bytes : List Byte) : Outcome :=
  match appendChunk w bytes with
  | .error (f, w') => .panicked f w'
  | .ok w' => matchLoop lib fuel w'

/-- The end positions `m[1]` of the matches that `matchLoop` completes, in
order: an observer of the loop, used to state the offset accounting. -/
def matchEnds (lib : Lib) : Nat → World → List Int
  | fuel, w =>
    match w.parser.compiled.FindSubmatchIndex w.parser.buffer with
    | none => []
    | some m =>
      match fuel with
      | 0 => []
      | fuel + 1 =>
        match matchStep lib w m with
        | .error _ => []
        | .ok w' => m.getD 1 0 :: matchEnds lib fuel w'

/-- The end positions of the matches completed by one `Consume` call. -/
def consumeEnds (lib : Lib) (fuel : Nat) (w : World) (bytes : List Byte) : List Int :=
  match appendChunk w bytes with
  | .error _ => []
  | .ok w' => matchEnds lib fuel w'

/-- The number of bytes the overflow policy drops in `Consume(bytes)`. -/
def overflowExcess (w : World) (bytes : List Byte) : Int :=
  let l : Int := (w.parser.buffer ++ bytes).length
  if l > w.parser.maxLineSize then l - w.parser.maxLineSize else 0

/-- A sequence of `Consume` calls, one per chunk, each with the same fuel; it
stops at the first call that does not return. -/
def ConsumeAll (lib : Lib) (fuel : Nat) : World → List (List Byte) → Outcome
  | w, [] => .returned w
  | w, chunk :: chunks =>
    match Consume lib fuel w chunk with
    | .returned w' => ConsumeAll lib fuel w' chunks
    | o => o

/-! ## `float64` values: multiplication and the `%f` verb -/

/-- The sign bit. -/
def Float64.sign (x : Float64) : Bool := x.bits / 2 ^ 63 % 2 = 1

/-- The 11-bit exponent field. -/
def Float64.expField (x : Float64) : Nat := x.bits / 2 ^ 52 % 2048

/-- The 52-bit fraction field. -/
def Float64.frac (x : Float64) : Nat := x.bits % 2 ^ 52

/-- Not a number. -/
def Float64.isNaN (x : Float64) : Bool := x.expField = 2047 ∧ x.frac ≠ 0

/-- Plus or minus infinity. -/
def Float64.isInf (x : Float64) : Bool := x.expField = 2047 ∧ x.frac = 0

/-- Neither NaN nor infinite. -/
def Float64.isFinite (x : Float64) : Bool := x.expField ≠ 2047

/-- The magnitude of a finite `x` is `mant * 2 ^ exp2`. -/
def Float64.mant (x : Float64) : Nat :=
  if x.expField = 0 then x.frac else 2 ^ 52 + x.frac

/-- The binary exponent going with `mant`. -/
def Float64.exp2 (x : Float64) : Int :=
  if x.expField = 0 then -1074 else (x.expField : Int) - 1075

/-- The number of binary digits of `n`; the first argument is fuel. -/
def bitLength : Nat → Nat → Nat
  | 0, _ => 0
  | fuel + 1, n => if n = 0 then 0 else bitLength fuel (n / 2) + 1

/-- The quotient `n / d` rounded to nearest, ties to even. -/
def divRoundEven (n d : Nat) : Nat :=
  let q := n / d
  let r := n % d
  if 2 * r > d ∨ (2 * r = d ∧ q % 2 = 1) then q + 1 else q

/-- The `float64` nearest to `± m * 2 ^ e` (ties to even), infinite on overflow. -/
def roundPack (neg : Bool) (m : Nat) (e : Int) : Float64 :=
  let s : Nat := if neg then 2 ^ 63 else 0
  if m = 0 then ⟨s⟩
  else
    let k : Int := bitLength m m
    let q : Int := max (e + k - 53) (-1074)
    let sig : Nat :=
      if q ≤ e then m * 2 ^ (e - q).toNat else divRoundEven m (2 ^ (q - e).toNat)
    let sig' : Nat := if sig = 2 ^ 53 then 2 ^ 52 else sig
    let q' : Int := if sig = 2 ^ 53 then q + 1 else q
    if sig' < 2 ^ 52 then ⟨s + sig'⟩
    else if q' + 1075 ≥ 2047 then ⟨s + 2047 * 2 ^ 52⟩
    else ⟨s + (q' + 1075).toNat * 2 ^ 52 + (sig' - 2 ^ 52)⟩

/-- A NaN (the payload of a computed NaN is not modelled). -/
def Float64.nan : Float64 := ⟨0x7FF8000000000001⟩

/-- The product `x * y` of IEEE-754 binary64, rounding to nearest even. -/
def Float64.mul (x y : Float64) : Float64 :=
  let neg : Bool := x.sign != y.sign
  if x.isNaN ∨ y.isNaN then Float64.nan
  else if x.isInf ∨ y.isInf then
    if (x.isFinite ∧ x.mant = 0) ∨ (y.isFinite ∧ y.mant = 0) then Float64.nan
    else ⟨(if neg then 2 ^ 63 else 0) + 2047 * 2 ^ 52⟩
  else roundPack neg (x.mant * y.mant) (x.exp2 + y.exp2)

/-- The `float64` constant 1000. -/
def Float64.thousand : Float64 := ⟨0x408F400000000000⟩

/-- The decimal digit `d % 10`. -/
def digitChar (d : Nat) : Char := "0123456789".data.getD (d % 10) '0'

/-- The decimal digits of `n`, most significant first; the first argument is fuel. -/
def natDigits : Nat → Nat → List Char
  | 0, n => [digitChar n]
  | fuel + 1, n => if n < 10 then [digitChar n] else natDigits fuel (n / 10) ++ [digitChar n]

/-- `%d` applied to an integer. -/
def formatD (n : Int) : String :=
  String.mk ((if n < 0 then ['-'] else []) ++ natDigits n.natAbs n.natAbs)

/-- The magnitude of a finite `x` times 10^6, rounded to the nearest integer,
ties to even. -/
def Float64.micros (x : Float64) : Nat :=
  if 0 ≤ x.exp2 then x.mant * 2 ^ x.exp2.toNat * 1000000
  else divRoundEven (x.mant * 1000000) (2 ^ (-x.exp2).toNat)

/-- `%f` applied to a `float64`: six digits after the point for a finite
value, `NaN`, `+Inf` or `-Inf` otherwise. -/
def sprintfF (x : Float64) : String :=
  if x.isNaN then "NaN"
  else if x.isInf then (if x.sign then "-Inf" else "+Inf")
  else
    let n := x.micros
    String.mk ((if x.sign then ['-'] else []) ++ natDigits (n / 1000000) (n / 1000000) ++ ['.']
      ++ [digitChar (n / 100000), digitChar (n / 10000), digitChar (n / 1000),
          digitChar (n / 100), digitChar (n / 10), digitChar n])


/-! ## `encoder.go` -/

/-- A `*url.URL`, by the one field `NewEncoder` reads. -/
structure URL where
  Scheme : String

/-- The three implementations of the `Encoder` interface. -/
inductive Encoder where
  | JsonEncoder
  | StatsdEncoder
  | RawStringEncoder
  deriving DecidableEq

/-- `strings.Split(s, sep)` for a separator of one byte: the pieces of `s`
between the separators, always at least one piece. -/
def Split (sep : Char) : List Char → List (List Char)
  | [] => [[]]
  | c :: cs =>
    if c = sep then [] :: Split sep cs
    else match Split sep cs with
      | [] => [[c]]
      | piece :: pieces => (c :: piece) :: pieces

/-- `NewEncoder(u)`: the encoder and the error returned (`none` for `nil`), or
the panic of `a[len(a)-1]`. -/
def NewEncoder (u : URL) : Except Fault (Encoder × Option String) :=
  let a := Split '+' u.Scheme.data
  match a[a.length - 1]? with
  | none => .error .indexOutOfRange
  | some last =>
    if String.mk last = "json" then .ok (.JsonEncoder, none)
    else if String.mk last = "statsd" then .ok (.StatsdEncoder, none)
    else .ok (.RawStringEncoder, none)

/-- What the `fmt` and `encoding/json` packages do outside the cases modelled
here. -/
structure Fmt where
  /-- The text `%d` gives for a value that is not an integer (`%!d(...)`). -/
  badVerbD : Value → String
  /-- The text `%s` gives for a `float64` (`%!s(float64=...)`). -/
  badVerbS : Float64 → String
  /-- The bytes `json.Marshal` returns for a map of values it accepts. -/
  jsonText : List (String × Value) → String

/-- What an `Encode` call did: the `Write` calls made on the writer, in order,
the lines printed on standard output, and the panic if it panicked. -/
structure Encoded where
  writes : List String
  stdout : List String
  fault : Option Fault

/-- `(*RawStringEncoder).Encode(out, writer)`; the order of the list is the
order in which `range` visits the map. -/
def RawStringEncoder.Encode : Record → Encoded
  | [] => ⟨[], [], none⟩
  | (_, v) :: rest =>
    if v.Typ = .String then
      match v.Value with
      | .string s =>
        let r := RawStringEncoder.Encode rest
        { r with writes := (s ++ "\n") :: r.writes }
      | _ => ⟨[], [], some .typeAssertion⟩
    else RawStringEncoder.Encode rest

/-- Whether `json.Marshal` rejects the value: a `float64` that is NaN or
infinite is an `UnsupportedValueError`; strings, integers, finite floats and
slices of strings are accepted. -/
def Value.unsupported : Value → Bool
  | .float64 x => !x.isFinite
  | _ => false

/-- `json.Marshal(stripped)`, `none` on error. -/
def jsonMarshal (fmt : Fmt) (stripped : List (String × Value)) : Option String :=
  if stripped.any (fun kv => kv.2.unsupported) then none else some (fmt.jsonText stripped)

/-- `(*JsonEncoder).Encode(out, writer)`. -/
def JsonEncoder.Encode (fmt : Fmt) (out : Record) : Encoded :=
  let stripped := out.map (fun kv => (kv.1, kv.2.Value))
  match jsonMarshal fmt stripped with
  | none => ⟨[], [], some .marshalError⟩
  | some bytes => ⟨[bytes ++ "\n"], [], none⟩

/-- `fmt.Sprintf("%d", v)` for the dynamic value of a column. -/
def sprintfD (fmt : Fmt) : Value → String
  | .int64 n => formatD n
  | v => fmt.badVerbD v

/-- `(*StatsdEncoder).Encode(out, writer)`; the order of the list is the order
in which `range` visits the map. -/
def StatsdEncoder.Encode (fmt : Fmt) : Record → Encoded
  | [] => ⟨[], [], none⟩
  | (k, v) :: rest =>
    match v.Treatment with
    | .Gauge =>
      let r := StatsdEncoder.Encode fmt rest
      { r with writes := (k ++ ":" ++ sprintfD fmt v.Value ++ "|g") :: r.writes }
    | .Metric =>
      match v.Value with
      | .float64 x =>
        let timing := x.mul Float64.thousand
        let r := StatsdEncoder.Encode fmt rest
        { r with writes := (k ++ "-us:" ++ sprintfF timing ++ "|ms") :: r.writes,
                 stdout := ("Timing: " ++ fmt.badVerbS timing ++ "\n") :: r.stdout }
      | _ => ⟨[], [], some .typeAssertion⟩
    | .Counter =>
      let r := StatsdEncoder.Encode fmt rest
      { r with writes := (k ++ ":" ++ sprintfD fmt v.Value ++ "|c") :: r.writes }
    | _ => StatsdEncoder.Encode fmt rest

/-- `encoder.Encode(out, writer)` through the interface. -/
def Encoder.Encode (fmt : Fmt) : Encoder → Record → Encoded
  | .JsonEncoder, out => JsonEncoder.Encode fmt out
  | .StatsdEncoder, out => StatsdEncoder.Encode fmt out
  | .RawStringEncoder, out => RawStringEncoder.Encode out

/-! ## Predicates used to state the claims -/

/-- What the whole outer loop, from position `i`, does to one field: each
capture of the same name rebinds `Group`, the last one wins. -/
def rebindAll : Int → List String → FieldConfig → FieldConfig
  | _, [], f => f
  | i, name :: names, f =>
    rebindAll (i + 1) names (if name ≠ "" ∧ name = f.specName then { f with Group := i } else f)

/-- The fields the outer loop, from position `i`, appends, `keys` being the
names under which the fields present so far are looked up. -/
def autoFields : Int → List String → List String → List FieldConfig
  | _, [], _ => []
  | i, name :: names, keys =>
    if name ≠ "" ∧ name ∉ keys then
      rebindAll (i + 1) names (autoField i name) :: autoFields (i + 1) names (keys ++ [name])
    else autoFields (i + 1) names keys

/-- Field resolution in the spec's words, for one declared field: a field
whose name (alias, if the name is empty) is the name of a named capture is
bound to that capture's position. -/
def boundField (names : List String) (f : FieldConfig) : FieldConfig :=
  if f.specName ≠ "" ∧ f.specName ∈ names then
    { f with Group := (names.indexOf f.specName : Nat) }
  else f

/-- Field resolution in the spec's words, the generated fields: one per named
capture that no declared field names, with alias the capture name, group the
capture position, type String and treatment Simple. -/
def autoGenerated (names : List String) (fields : List FieldConfig) : List FieldConfig :=
  ((names.enum).filter
      (fun jn => decide (jn.2 ≠ "" ∧ ∀ f ∈ fields, f.specName ≠ jn.2))).map
    (fun jn => { Name := "", Alias := jn.2, Group := (jn.1 : Nat), Typ := FieldType.String,
                 Treatment := FieldTreatment.Simple, Format := "", Pattern := none, Salt := "" })

/-- The invariant of `Column` in the spec: the kind of the value matches the type. -/
def Column.kindMatches (c : Column) : Bool :=
  match c.Typ, c.Value with
  | .String, .string _ => true
  | .Integer, .int64 _ => true
  | .Double, .float64 _ => true
  | .Timestamp, .int64 _ => true
  | .TokenList, .strings _ => true
  | _, _ => false

/-- The shape of the column written for a String field with Hash treatment:
type `TokenList`, treatment `Hash`, a string value. -/
def Column.hashShaped (c : Column) : Bool :=
  match c.Typ, c.Treatment, c.Value with
  | .TokenList, .Hash, .string _ => true
  | _, _, _ => false

/-- Every column of the record matches its type, or is hash-shaped. -/
def Record.kindsOK (r : Record) : Prop :=
  ∀ kc ∈ r, kc.2.kindMatches = true ∨ kc.2.hashShaped = true

/-- The state follows the stream: the counter is the number of bytes of
`stream` that left the buffer, and the buffer is the rest of the stream. -/
def Tracks (stream : List Byte) (w : World) : Prop :=
  0 ≤ w.counter ∧ w.counter ≤ stream.length ∧ w.parser.buffer = stream.drop w.counter.toNat

/-- The iterations that `matchLoop` completes, in order: the state in which
each match was searched, and the match found (an observer of the loop). -/
def matchTrace (lib : Lib) : Nat → World → List (World × List Int)
  | fuel, w =>
    match w.parser.compiled.FindSubmatchIndex w.parser.buffer with
    | none => []
    | some m =>
      match fuel with
      | 0 => []
      | fuel + 1 =>
        match matchStep lib w m with
        | .error _ => []
        | .ok w' => (w, m) :: matchTrace lib fuel w'

/-- The iterations completed by one `Consume` call. -/
def consumeTrace (lib : Lib) (fuel : Nat) (w : World) (bytes : List Byte) :
    List (World × List Int) :=
  match appendChunk w bytes with
  | .error _ => []
  | .ok w' => matchTrace lib fuel w'

/-- The record built for the match `m` found in the state `w`: what the field
loop leaves of the synthetic record, `none` if it panics. -/
def recordOf (lib : Lib) (w : World) (m : List Int) : Option Record :=
  match fieldLoop lib w.parser.buffer m ⟨synthetic lib w, [], w.ticks + 1⟩ w.parser.fields with
  | .ok st => some st.out
  | .error _ => none

/-- The iterations `trace` are successive matches of `re` from the buffer
`start` down to the buffer `final`: each match is what `FindSubmatchIndex`
finds in the buffer that remains after the end `m[1]` of the previous one, and
`final` is what remains after the last. -/
def Successive (re : Regexp) : List Byte → List (World × List Int) → List Byte → Prop
  | start, [], final => start = final
  | start, (w, m) :: rest, final =>
    w.parser.buffer = start ∧ re.FindSubmatchIndex start = some m
      ∧ ∃ e : Int, index m 1 = .ok e ∧ 0 ≤ e ∧ e ≤ start.length
          ∧ Successive re (start.drop e.toNat) rest final

/-- The hand-offs of `matchLoop`, in order: for every iteration whose field
loop completed (its record is sent before anything later in the iteration can
panic), the state in which the match was searched and the match found (an
observer of the loop). -/
def handOffs (lib : Lib) : Nat → World → List (World × List Int)
  | fuel, w =>
    match w.parser.compiled.FindSubmatchIndex w.parser.buffer with
    | none => []
    | some m =>
      match fuel with
      | 0 => []
      | fuel + 1 =>
        match recordOf lib w m with
        | none => []
        | some _ =>
          (w, m) :: (match matchStep lib w m with
            | .error _ => []
            | .ok w' => handOffs lib fuel w')

/-- The hand-offs of a sequence of `Consume` calls, in order. -/
def handOffsAll (lib : Lib) (fuel : Nat) : World → List (List Byte) → List (World × List Int)
  | _, [] => []
  | w, chunk :: chunks =>
    match appendChunk w chunk with
    | .error _ => []
    | .ok w1 =>
      handOffs lib fuel w1 ++
        (match matchLoop lib fuel w1 with
          | .returned w' => handOffsAll lib fuel w' chunks
          | _ => [])

/-- Encoder selection in the spec's words: the format name selects the
variant, and an unrecognised one gives RawString. -/
def encoderFor (format : String) : Encoder :=
  if format = "json" then .JsonEncoder
  else if format = "statsd" then .StatsdEncoder
  else .RawStringEncoder

/-- RawString in the spec's words: the line written for a column, if any: the
raw value and a newline for a column of type String, nothing otherwise. -/
def rawLine (kc : String × Column) : Option String :=
  match kc.2.Typ, kc.2.Value with
  | .String, .string s => some (s ++ "\n")
  | _, _ => none

/-- StatsdLine in the spec's words: the text written for a column, if any. -/
def statsdLine (kc : String × Column) : Option String :=
  match kc.2.Treatment, kc.2.Value with
  | .Gauge, .int64 n => some (kc.1 ++ ":" ++ formatD n ++ "|g")
  | .Counter, .int64 n => some (kc.1 ++ ":" ++ formatD n ++ "|c")
  | .Metric, .float64 x => some (kc.1 ++ "-us:" ++ sprintfF (x.mul Float64.thousand) ++ "|ms")
  | _, _ => none

/-- The columns the statsd encoder has something to say about. -/
def Column.isStat (c : Column) : Bool :=
  c.Treatment = .Gauge ∨ c.Treatment = .Counter ∨ c.Treatment = .Metric

/-! ## Worked examples: concrete patterns and a concrete library -/

/-- Leftmost occurrence of the byte `c`, as the match `[i, i+1]` of the pattern
made of that one literal byte; `i` counts the bytes already skipped. -/
def findLiteral (c : Byte) : Nat → List Byte → Option (List Int)
  | _, [] => none
  | i, x :: xs => if x = c then some [i, i + 1] else findLiteral c (i + 1) xs

/-- The compiled pattern `b`. -/
def patB : Regexp where
  SubexpNames := [""]
  FindSubmatchIndex := findLiteral 'b' 0

/-- The compiled pattern `(a)`: one unnamed group around a literal byte. -/
def patGroupA : Regexp where
  SubexpNames := ["", ""]
  FindSubmatchIndex := fun b => (findLiteral 'a' 0 b).map (fun m => m ++ m)

/-- Leftmost occurrence of the two bytes `ab`, with the spans of both bytes. -/
def findAB : Nat → List Byte → Option (List Int)
  | _, [] => none
  | _, [_] => none
  | i, x :: y :: rest =>
    if x = 'a' ∧ y = 'b' then some [i, i + 2, i, i + 1, i + 1, i + 2]
    else findAB (i + 1) (y :: rest)

/-- The compiled pattern `(?P<bob>a)(?P<bob>b)`, two groups of the same name. -/
def patBobBob : Regexp where
  SubexpNames := ["", "bob", "bob"]
  FindSubmatchIndex := findAB 0

/-- The number of leading bytes equal to `c`. -/
def runLength (c : Byte) : List Byte → Nat
  | [] => 0
  | x :: xs => if x = c then runLength c xs + 1 else 0

/-- Leftmost longest run of the byte `c`, as the match of the pattern `c+`. -/
def findRun (c : Byte) : Nat → List Byte → Option (List Int)
  | _, [] => none
  | i, x :: xs => if x = c then some [i, i + 1 + runLength c xs] else findRun c (i + 1) xs

/-- The compiled pattern `a+`. -/
def patAPlus : Regexp where
  SubexpNames := [""]
  FindSubmatchIndex := findRun 'a' 0

/-- The compiled pattern `(?P<x>a)`. -/
def patNamedA : Regexp where
  SubexpNames := ["", "x"]
  FindSubmatchIndex := fun b => (findLiteral 'a' 0 b).map (fun m => m ++ m)

/-- A library for the worked examples: it compiles the five patterns above,
parses no number and no date, and its clock stands at the epoch; the digest
and its encoding are stand-ins (identity). -/
def exampleLib : Lib where
  compile := fun pattern =>
    if pattern = "b" then some patB
    else if pattern = "(a)" then some patGroupA
    else if pattern = "(?P<bob>a)(?P<bob>b)" then some patBobBob
    else if pattern = "(?P<x>a)" then some patNamedA
    else if pattern = "a+" then some patAPlus
    else none
  parseTime := fun _ _ => none
  parseInt := fun _ => none
  parseFloat := fun _ => none
  sha1 := fun bs => bs
  base64URL := fun bs => String.mk bs
  clock := fun _ => { unix := 0, nsec := 0, loc := 0 }

/-- A String field with the given alias, bound to a capture group by number. -/
def groupField (name : String) (group : Int) : FieldConfig :=
  { FieldConfig.zero with Alias := name, Group := group, Typ := FieldType.String }

/-- A String field looked up by name among the captures. -/
def namedField (name : String) : FieldConfig :=
  { FieldConfig.zero with Name := name, Typ := FieldType.String }

/-- A String field with Hash treatment and the given salt, bound to group 0. -/
def hashField (name salt : String) : FieldConfig :=
  { FieldConfig.zero with Alias := name, Group := 0, Typ := FieldType.String,
                          Treatment := FieldTreatment.Hash, Salt := salt }

/-- A Timestamp field with the layout `Jan 2` (no year), bound to group 0. -/
def stampField (name : String) : FieldConfig :=
  { FieldConfig.zero with Alias := name, Group := 0, Typ := FieldType.Timestamp,
                          Format := "Jan 2" }

/-- The example library with a clock standing at 2024-01-05T00:00:00Z and a
`time.Parse` that knows one input: `Dec 31` in the layout `Jan 2`, which parses
to 0000-12-31T00:00:00Z. -/
def yearLib : Lib :=
  { exampleLib with
    parseTime := fun layout value =>
      if layout = "Jan 2" ∧ value = "Dec 31" then some (Date 0 12 31 0 0 0 0 0) else none,
    clock := fun _ => Date 2024 1 5 0 0 0 0 0 }

/-- A parser for `compiled` with the given fields and line size, empty buffer,
empty channel. -/
def exampleParser (compiled : Regexp) (fields : List FieldConfig) (maxLineSize : Int) :
    RegexpParser where
  group := "g"
  compiled := compiled
  output := []
  buffer := []
  fields := fields
  file := "f"
  hostname := "h"
  maxLineSize := maxLineSize

/-- The world of a fresh example parser: counter 0, no clock reading yet. -/
def exampleWorld (compiled : Regexp) (fields : List FieldConfig) (maxLineSize : Int) : World where
  parser := exampleParser compiled fields maxLineSize
  counter := 0
  ticks := 0

/-- The compiled empty pattern: it matches the empty string at the start of
every buffer. -/
def patEmpty : Regexp where
  SubexpNames := [""]
  FindSubmatchIndex := fun _ => some [0, 0]

/-- The value of a string of decimal digits, `none` if some byte is not a digit. -/
def digitsValue : List Char → Nat → Option Nat
  | [], acc => some acc
  | c :: cs, acc =>
    if '0' ≤ c ∧ c ≤ '9' then digitsValue cs (acc * 10 + (c.toNat - 48)) else none

/-- `strconv.ParseInt(s, 10, 64)` for the worked examples: an optional sign,
at least one decimal digit, nothing else, and a value in the `int64` range. -/
def parseInt10 (s : String) : Option Int :=
  let body : Bool × List Char :=
    match s.data with
    | '-' :: cs => (true, cs)
    | '+' :: cs => (false, cs)
    | cs => (false, cs)
  if body.2 = [] then none
  else match digitsValue body.2 0 with
    | none => none
    | some v =>
      let n : Int := if body.1 then -(v : Int) else v
      if -9223372036854775808 ≤ n ∧ n ≤ 9223372036854775807 then some n else none

/-- The example library with the decimal `ParseInt` above. -/
def decimalLib : Lib :=
  { exampleLib with parseInt := parseInt10 }

/-- An Integer field with the given alias and treatment, bound to a group by number. -/
def intField (name : String) (group : Int) (treatment : FieldTreatment) : FieldConfig :=
  { FieldConfig.zero with Alias := name, Group := group, Typ := FieldType.Integer,
                          Treatment := treatment }

/-- The compiled pattern `(7)`: one unnamed group around the digit 7. -/
def patGroupSeven : Regexp where
  SubexpNames := ["", ""]
  FindSubmatchIndex := fun b => (findLiteral '7' 0 b).map (fun m => m ++ m)

/-- The hexadecimal digit `d % 16`. -/
def hexDigit (d : Nat) : Char := "0123456789abcdef".data.getD (d % 16) '0'

/-- A JSON string literal, with the escapes `json.Marshal` applies. -/
def jsonString (s : String) : String :=
  String.mk (['"'] ++ (s.data.map (fun c =>
    if c = '"' then ['\\', '"']
    else if c = '\\' then ['\\', '\\']
    else if c = '\n' then ['\\', 'n']
    else if c = '\r' then ['\\', 'r']
    else if c = '\t' then ['\\', 't']
    else if c.toNat < 32 ∨ c = '<' ∨ c = '>' ∨ c = '&' then
      ['\\', 'u', '0', '0', hexDigit (c.toNat / 16), hexDigit c.toNat]
    else if c.toNat = 0x2028 then ['\\', 'u', '2', '0', '2', '8']
    else if c.toNat = 0x2029 then ['\\', 'u', '2', '0', '2', '9']
    else [c])).flatten ++ ['"'])

/-- The pieces joined, with `sep` between them. -/
def joinWith (sep : String) : List String → String
  | [] => ""
  | [x] => x
  | x :: y :: rest => x ++ sep ++ joinWith sep (y :: rest)

/-- The JSON text of a value in the worked examples.  A finite float is given
in fixed notation with six decimals, a JSON number but not the shortest form
`json.Marshal` picks; an empty token list is the nil slice `FindAllString`
returns, hence `null`. -/
def jsonValue : Value → String
  | .string s => jsonString s
  | .int64 n => formatD n
  | .float64 x => sprintfF x
  | .strings [] => "null"
  | .strings l => "[" ++ joinWith "," (l.map jsonString) ++ "]"

/-- Byte-wise order of keys. -/
def keyLt : List Char → List Char → Bool
  | [], [] => false
  | [], _ :: _ => true
  | _ :: _, [] => false
  | a :: as, b :: bs =>
    if a.toNat < b.toNat then true else if b.toNat < a.toNat then false else keyLt as bs

/-- Insertion of an entry in a list sorted by key. -/
def insertByKey (kv : String × Value) : List (String × Value) → List (String × Value)
  | [] => [kv]
  | x :: xs => if keyLt kv.1.data x.1.data then kv :: x :: xs else x :: insertByKey kv xs

/-- The `fmt` and `encoding/json` behaviour used in the worked examples: JSON
objects with sorted keys, and the `%!verb(type=value)` texts of `fmt` with the
float inside given in fixed notation. -/
def exampleFmt : Fmt where
  badVerbD := fun v =>
    match v with
    | .string s => "%!d(string=" ++ s ++ ")"
    | .int64 n => formatD n
    | .float64 x => "%!d(float64=" ++ sprintfF x ++ ")"
    | .strings l => "[" ++ joinWith " " (l.map (fun s => "%!d(string=" ++ s ++ ")")) ++ "]"
  badVerbS := fun x => "%!s(float64=" ++ sprintfF x ++ ")"
  jsonText := fun obj =>
    "\x7b" ++ joinWith ","
      ((obj.foldr insertByKey []).map (fun kv => jsonString kv.1 ++ ":" ++ jsonValue kv.2))
      ++ "\x7d"

/-! ## Shared lemmas -/

theorem sliceFrom_ok {b : List Byte} {lo : Int} {r : List Byte} (h : sliceFrom b lo = .ok r) :
    0 ≤ lo ∧ lo ≤ b.length ∧ r = b.drop lo.toNat := by
  unfold sliceFrom at h
  split at h
  · rename_i hc
    simp only [Except.ok.injEq] at h
    exact ⟨hc.1, hc.2, h.symm⟩
  · simp at h

theorem matchStep_ok {lib : Lib} {w w' : World} {m : List Int} (h : matchStep lib w m = .ok w') :
    ∃ st e b, fieldLoop lib w.parser.buffer m ⟨synthetic lib w, [], w.ticks + 1⟩ w.parser.fields = .ok st
      ∧ index m 1 = .ok e ∧ sliceFrom w.parser.buffer e = .ok b
      ∧ w' = { parser := { w.parser with output := w.parser.output ++ [st.out], buffer := b },
               counter := AddInt64 w.counter e, ticks := st.ticks } := by
  unfold matchStep at h
  split at h
  · simp at h
  · rename_i st hst
    split at h
    · simp at h
    · rename_i e he
      split at h
      · simp at h
      · rename_i b hb
        simp only [Except.ok.injEq] at h
        exact ⟨st, e, b, hst, he, hb, h.symm⟩

theorem matchStep_error {lib : Lib} {w w' : World} {m : List Int} {f : Fault}
    (h : matchStep lib w m = .error (f, w')) :
    w'.parser.buffer = w.parser.buffer ∧ w'.parser.maxLineSize = w.parser.maxLineSize := by
  unfold matchStep at h
  split at h
  · simp only [Except.error.injEq, Prod.mk.injEq] at h
    rw [← h.2]; exact ⟨rfl, rfl⟩
  · split at h
    · simp only [Except.error.injEq, Prod.mk.injEq] at h
      rw [← h.2]; exact ⟨rfl, rfl⟩
    · split at h
      · simp only [Except.error.injEq, Prod.mk.injEq] at h
        rw [← h.2]; exact ⟨rfl, rfl⟩
      · simp at h

theorem matchLoop_buffer_le (lib : Lib) (fuel : Nat) (w : World) :
    (matchLoop lib fuel w).world.parser.buffer.length ≤ w.parser.buffer.length
      ∧ (matchLoop lib fuel w).world.parser.maxLineSize = w.parser.maxLineSize := by
  induction fuel generalizing w with
  | zero =>
    unfold matchLoop
    split <;> simp [Outcome.world]
  | succ n ih =>
    unfold matchLoop
    split
    · simp [Outcome.world]
    · rename_i m hm
      simp only
      split
      · rename_i f w' he
        have := matchStep_error he
        simp [Outcome.world, this.1, this.2]
      · rename_i w' hok
        obtain ⟨st, e, b, -, -, hb, hw⟩ := matchStep_ok hok
        have hs := sliceFrom_ok hb
        have h1 : w'.parser.buffer = b := by rw [hw]
        have h2 : w'.parser.maxLineSize = w.parser.maxLineSize := by rw [hw]
        have := ih w'
        rw [h1, h2] at this
        refine ⟨le_trans this.1 ?_, this.2⟩
        rw [hs.2.2]; simp

theorem appendChunk_ok {w w' : World} {bytes : List Byte} (h : appendChunk w bytes = .ok w') :
    w'.parser = { w.parser with buffer := w'.parser.buffer } ∧ w'.ticks = w.ticks
    ∧ (((w.parser.buffer.length : Int) + bytes.length ≤ w.parser.maxLineSize
          ∧ w'.parser.buffer = w.parser.buffer ++ bytes ∧ w'.counter = w.counter)
       ∨ (w.parser.maxLineSize < (w.parser.buffer.length : Int) + bytes.length
          ∧ 0 ≤ w.parser.maxLineSize
          ∧ w'.parser.buffer = (w.parser.buffer ++ bytes).drop
              ((w.parser.buffer.length : Int) + bytes.length - w.parser.maxLineSize).toNat
          ∧ (w'.parser.buffer.length : Int) = w.parser.maxLineSize
          ∧ w'.counter = AddInt64 w.counter
              ((w.parser.buffer.length : Int) + bytes.length - w.parser.maxLineSize))) := by
  unfold appendChunk at h
  simp only [List.length_append, Nat.cast_add] at h
  split at h
  · rename_i hl
    split at h
    · simp at h
    · rename_i b hb
      have hs := sliceFrom_ok hb
      simp only [List.length_append, Nat.cast_add] at hs
      simp only [Except.ok.injEq] at h
      subst h
      refine ⟨rfl, rfl, Or.inr ⟨by omega, by omega, hs.2.2, ?_, rfl⟩⟩
      simp only
      rw [hs.2.2, List.length_drop, List.length_append]
      omega
  · rename_i hl
    simp only [Except.ok.injEq] at h
    subst h
    exact ⟨rfl, rfl, Or.inl ⟨by omega, rfl, rfl⟩⟩

theorem appendChunk_error {w w' : World} {bytes : List Byte} {f : Fault}
    (h : appendChunk w bytes = .error (f, w')) : w.parser.maxLineSize < 0 := by
  unfold appendChunk at h
  simp only [List.length_append, Nat.cast_add] at h
  split at h
  · rename_i hl
    split at h
    · rename_i f' hf
      unfold sliceFrom at hf
      split at hf
      · simp at hf
      · rename_i hc
        simp only [List.length_append, Nat.cast_add] at hc
        omega
    · simp at h
  · simp at h

theorem Consume_buffer_le (lib : Lib) (fuel : Nat) (w : World) (bytes : List Byte)
    (hmax : 0 ≤ w.parser.maxLineSize) :
    ((Consume lib fuel w bytes).world.parser.buffer.length : Int) ≤ w.parser.maxLineSize
      ∧ (Consume lib fuel w bytes).world.parser.maxLineSize = w.parser.maxLineSize := by
  unfold Consume
  split
  · rename_i f w' he
    have := appendChunk_error he
    omega
  · rename_i w' hok
    obtain ⟨hp, -, hcase⟩ := appendChunk_ok hok
    have hm : w'.parser.maxLineSize = w.parser.maxLineSize := by rw [hp]
    have := matchLoop_buffer_le lib fuel w'
    rw [hm] at this
    refine ⟨?_, this.2⟩
    rcases hcase with ⟨h1, h2, -⟩ | ⟨-, -, -, h2, -⟩
    · have h3 := congrArg List.length h2
      simp only [List.length_append] at h3
      omega
    · omega

theorem ConsumeAll_buffer_le (lib : Lib) (fuel : Nat) (chunks : List (List Byte)) (w : World)
    (hmax : 0 ≤ w.parser.maxLineSize) (hbuf : (w.parser.buffer.length : Int) ≤ w.parser.maxLineSize) :
    ((ConsumeAll lib fuel w chunks).world.parser.buffer.length : Int) ≤ w.parser.maxLineSize := by
  induction chunks generalizing w with
  | nil => simpa [ConsumeAll, Outcome.world] using hbuf
  | cons chunk chunks ih =>
    have h := Consume_buffer_le lib fuel w chunk hmax
    unfold ConsumeAll
    split
    · rename_i w' hw'
      rw [hw'] at h
      simp only [Outcome.world] at h
      have := ih w' (by rw [h.2]; exact hmax) (by rw [h.2]; exact h.1)
      rw [h.2] at this
      exact this
    · exact h.1

theorem wrapInt64_range (x : Int) :
    -9223372036854775808 ≤ wrapInt64 x ∧ wrapInt64 x ≤ 9223372036854775807 := by
  unfold wrapInt64; omega

theorem wrapInt64_id {x : Int} (h1 : -9223372036854775808 ≤ x) (h2 : x ≤ 9223372036854775807) :
    wrapInt64 x = x := by
  unfold wrapInt64; omega

theorem wrapInt64_add (x y : Int) : wrapInt64 (wrapInt64 x + y) = wrapInt64 (x + y) := by
  unfold wrapInt64; omega

theorem index_ok {m : List Int} {i v : Int} (h : index m i = .ok v) :
    0 ≤ i ∧ m[i.toNat]? = some v := by
  unfold index at h
  split at h
  · simp at h
  · rename_i hi
    split at h
    · rename_i v' hv
      simp only [Except.ok.injEq] at h
      exact ⟨by omega, by rw [hv, h]⟩
    · simp at h

/-- Accounting of the match loop, modulo 2^64: when the loop returns or runs
out of fuel, the counter has advanced by the number of bytes dropped, which is
the sum of the completed matches' end positions. -/
theorem matchLoop_counter (lib : Lib) (fuel : Nat) (w w' : World)
    (h : matchLoop lib fuel w = .returned w' ∨ matchLoop lib fuel w = .running w')
    (hc : wrapInt64 w.counter = w.counter) :
    w'.parser.buffer.length ≤ w.parser.buffer.length
    ∧ w'.counter = wrapInt64 (w.counter + (w.parser.buffer.length - w'.parser.buffer.length))
    ∧ ((w.parser.buffer.length : Int) - w'.parser.buffer.length = (matchEnds lib fuel w).sum) := by
  induction fuel generalizing w with
  | zero =>
    unfold matchLoop at h
    unfold matchEnds
    split at h
    · rename_i hm
      simp only [Outcome.returned.injEq, or_false, reduceCtorEq] at h
      subst h
      simp [hm, hc]
    · rename_i m hm
      simp only [Outcome.running.injEq, false_or, reduceCtorEq] at h
      subst h
      simp [hm, hc]
  | succ n ih =>
    unfold matchLoop at h
    unfold matchEnds
    split at h
    · rename_i hm
      simp only [Outcome.returned.injEq, or_false, reduceCtorEq] at h
      subst h
      simp [hm, hc]
    · rename_i m hm
      simp only at h
      simp only [hm]
      split at h
      · simp at h
      · rename_i w1 hok
        rw [hok]
        simp only
        obtain ⟨st, e, b, -, he, hb, hw⟩ := matchStep_ok hok
        have hs := sliceFrom_ok hb
        have hi := index_ok he
        have h1 : w1.parser.buffer = b := by rw [hw]
        have h2 : w1.counter = AddInt64 w.counter e := by rw [hw]
        have hb' : (b.length : Int) = w.parser.buffer.length - e := by
          rw [hs.2.2, List.length_drop]; omega
        have hget : m.getD 1 0 = e := by
          have := hi.2
          simp only [Int.toNat_one] at this
          simp [List.getD, this]
        have hc1 : wrapInt64 w1.counter = w1.counter := by
          rw [h2]; unfold AddInt64 wrapInt64; omega
        obtain ⟨i1, i2, i3⟩ := ih w1 h hc1
        rw [h1] at i1 i2 i3
        refine ⟨by omega, ?_, ?_⟩
        · rw [i2, h2]
          unfold AddInt64
          rw [wrapInt64_add]
          congr 1
          omega
        · rw [List.sum_cons, hget, ← i3]
          omega


theorem Consume_counter (lib : Lib) (fuel : Nat) (w w' : World) (bytes : List Byte)
    (h : Consume lib fuel w bytes = .returned w')
    (hlo : -9223372036854775808 ≤ w.counter)
    (hhi : w.counter + w.parser.buffer.length + bytes.length ≤ 9223372036854775807) :
    w'.counter - w.counter = w.parser.buffer.length + bytes.length - w'.parser.buffer.length
    ∧ w'.parser.buffer.length ≤ w.parser.buffer.length + bytes.length
    ∧ w'.counter - w.counter = overflowExcess w bytes + (consumeEnds lib fuel w bytes).sum := by
  unfold Consume at h
  unfold consumeEnds overflowExcess
  simp only [List.length_append, Nat.cast_add]
  split at h
  · simp at h
  · rename_i w1 hok
    rw [hok]
    simp only
    obtain ⟨-, -, hcase⟩ := appendChunk_ok hok
    rcases hcase with ⟨h1, h2, h3⟩ | ⟨h1, h0, -, h2, h3⟩
    · have hl := congrArg List.length h2
      simp only [List.length_append] at hl
      obtain ⟨i1, i2, i3⟩ := matchLoop_counter lib fuel w1 w' (Or.inl h) (by
        rw [h3]; apply wrapInt64_id <;> omega)
      rw [h3, wrapInt64_id (by omega) (by omega)] at i2
      rw [if_neg (by omega)]
      refine ⟨by omega, by omega, ?_⟩
      rw [← i3]; omega
    · have hc : w1.counter
          = w.counter + (↑w.parser.buffer.length + ↑bytes.length - w.parser.maxLineSize) := by
        rw [h3]; unfold AddInt64
        apply wrapInt64_id <;> omega
      obtain ⟨i1, i2, i3⟩ := matchLoop_counter lib fuel w1 w' (Or.inl h) (by
        rw [hc]; apply wrapInt64_id <;> omega)
      rw [hc, wrapInt64_id (by omega) (by omega)] at i2
      rw [if_pos (by omega)]
      refine ⟨by omega, by omega, ?_⟩
      rw [← i3]; omega

theorem Record.get_set_ne (r : Record) (k k' : String) (c : Column) (h : k' ≠ k) :
    (r.set k' c).get k = r.get k := by
  induction r with
  | nil => simp [Record.set, Record.get, h]
  | cons kc rest ih =>
    obtain ⟨k0, c0⟩ := kc
    unfold Record.set
    split
    · rename_i h0
      subst h0
      simp [Record.get, h]
    · simp [Record.get, ih]

theorem Record.get_set_eq (r : Record) (k : String) (c : Column) :
    (r.set k c).get k = some c := by
  induction r with
  | nil => simp [Record.set, Record.get]
  | cons kc rest ih =>
    obtain ⟨k0, c0⟩ := kc
    unfold Record.set
    split
    · simp [Record.get]
    · rename_i h0
      simp [Record.get, h0, ih]

theorem fieldStep_ok_out {lib : Lib} {buffer : List Byte} {m : List Int} {st st' : FieldState}
    {spec : FieldConfig} (h : fieldStep lib buffer m st spec = .ok st') :
    st'.out = st.out ∨ ∃ c, st'.out = st.out.set spec.Alias c := by
  unfold fieldStep at h
  simp only at h
  repeat' split at h
  all_goals first
    | (simp at h; done)
    | (simp only [Except.ok.injEq] at h; subst h; simp)


theorem synthetic_get_offset (lib : Lib) (w : World) :
    (synthetic lib w).get "_offset" = some ⟨.Integer, .Simple, .int64 w.counter⟩ := by
  rfl

theorem fieldLoop_get {lib : Lib} {buffer : List Byte} {m : List Int} {k : String}
    (fields : List FieldConfig) (st st' : FieldState)
    (h : fieldLoop lib buffer m st fields = .ok st') (hk : ∀ f ∈ fields, f.Alias ≠ k) :
    st'.out.get k = st.out.get k := by
  induction fields generalizing st with
  | nil =>
    simp only [fieldLoop, Except.ok.injEq] at h
    rw [h]
  | cons spec rest ih =>
    unfold fieldLoop at h
    split at h
    · simp at h
    · rename_i st1 h1
      rw [ih st1 h (fun f hf => hk f (List.mem_cons_of_mem _ hf))]
      rcases fieldStep_ok_out h1 with h2 | ⟨c, h2⟩
      · rw [h2]
      · rw [h2, Record.get_set_ne _ _ _ _ (hk spec (List.mem_cons_self _ _))]

theorem appendChunk_tracks {w w' : World} {bytes stream : List Byte}
    (ht : Tracks stream w) (hlen : ((stream ++ bytes).length : Int) ≤ 9223372036854775807)
    (h : appendChunk w bytes = .ok w') : Tracks (stream ++ bytes) w' := by
  obtain ⟨t1, t2, t3⟩ := ht
  obtain ⟨-, -, hcase⟩ := appendChunk_ok h
  simp only [List.length_append, Nat.cast_add] at hlen
  have hbl : (w.parser.buffer.length : Int) = stream.length - w.counter := by
    rw [t3, List.length_drop]; omega
  rcases hcase with ⟨h1, h2, h3⟩ | ⟨h1, h0, h2, -, h3⟩
  · refine ⟨by omega, ?_, ?_⟩
    · rw [h3, List.length_append]; push_cast; omega
    · rw [h2, h3, t3, List.drop_append_of_le_length (by omega)]
  · have hadd : w'.counter
        = w.counter + (↑w.parser.buffer.length + ↑bytes.length - w.parser.maxLineSize) := by
      rw [h3]; unfold AddInt64; apply wrapInt64_id <;> omega
    refine ⟨by omega, ?_, ?_⟩
    · rw [hadd, List.length_append]; push_cast; omega
    · have e1 : w.parser.buffer ++ bytes = (stream ++ bytes).drop w.counter.toNat := by
        rw [t3, List.drop_append_of_le_length (by omega)]
      rw [h2, e1, List.drop_drop]
      congr 1
      rw [hadd]
      omega

theorem appendChunk_error_output {w w' : World} {bytes : List Byte} {f : Fault}
    (h : appendChunk w bytes = .error (f, w')) : w'.parser.output = w.parser.output := by
  unfold appendChunk at h
  simp only at h
  split at h
  · split at h
    · simp only [Except.error.injEq, Prod.mk.injEq] at h
      rw [← h.2]
    · simp at h
  · simp at h

theorem recordOf_offset {lib : Lib} {w : World} {m : List Int} {r : Record}
    (hk : ∀ f ∈ w.parser.fields, f.Alias ≠ "_offset") (h : recordOf lib w m = some r) :
    r.get "_offset" = some ⟨.Integer, .Simple, .int64 w.counter⟩ := by
  unfold recordOf at h
  split at h
  · rename_i st hst
    simp only [Option.some.injEq] at h
    rw [← h, fieldLoop_get _ _ _ hst hk]
    exact synthetic_get_offset lib w
  · simp at h

theorem matchLoop_handOffs (lib : Lib) (stream : List Byte)
    (hlen : (stream.length : Int) ≤ 9223372036854775807) (fuel : Nat) (w : World)
    (ht : Tracks stream w) :
    (∃ recs, (matchLoop lib fuel w).world.parser.output = w.parser.output ++ recs
        ∧ recs.map some = (handOffs lib fuel w).map (fun h => recordOf lib h.1 h.2))
    ∧ (∀ h ∈ handOffs lib fuel w, Tracks stream h.1 ∧ h.1.parser.compiled = w.parser.compiled
        ∧ h.1.parser.fields = w.parser.fields
        ∧ h.1.parser.compiled.FindSubmatchIndex h.1.parser.buffer = some h.2)
    ∧ (∀ w', matchLoop lib fuel w = .returned w' →
        Tracks stream w' ∧ w'.parser.compiled = w.parser.compiled
        ∧ w'.parser.fields = w.parser.fields) := by
  have hret : ∀ w : World, (∃ recs, w.parser.output = w.parser.output ++ recs
        ∧ recs.map some = ([] : List (World × List Int)).map (fun h => recordOf lib h.1 h.2)) :=
    fun _ => ⟨[], by simp, rfl⟩
  induction fuel generalizing w with
  | zero =>
    unfold matchLoop handOffs
    cases hm : w.parser.compiled.FindSubmatchIndex w.parser.buffer with
    | none =>
      refine ⟨hret w, by simp, ?_⟩
      intro w' hw'
      simp only [Outcome.returned.injEq] at hw'
      subst hw'
      exact ⟨ht, rfl, rfl⟩
    | some m =>
      refine ⟨hret w, by simp, ?_⟩
      intro w' hw'
      simp at hw'
  | succ n ih =>
    unfold matchLoop handOffs
    cases hm : w.parser.compiled.FindSubmatchIndex w.parser.buffer with
    | none =>
      refine ⟨hret w, by simp, ?_⟩
      intro w' hw'
      simp only [Outcome.returned.injEq] at hw'
      subst hw'
      exact ⟨ht, rfl, rfl⟩
    | some m =>
      simp only
      cases hstep : matchStep lib w m with
      | error fw =>
        obtain ⟨f, w1⟩ := fw
        simp only [Outcome.world]
        refine ⟨?_, ?_, by intro w' hw'; simp at hw'⟩
        · unfold matchStep at hstep
          split at hstep
          · rename_i f1 hf1
            have hr : recordOf lib w m = none := by unfold recordOf; rw [hf1]
            simp only [Except.error.injEq, Prod.mk.injEq] at hstep
            rw [← hstep.2, hr]
            exact ⟨[], by simp, by simp⟩
          · rename_i st hst
            have hr : recordOf lib w m = some st.out := by unfold recordOf; rw [hst]
            have ho : w1.parser.output = w.parser.output ++ [st.out] := by
              split at hstep
              · simp only [Except.error.injEq, Prod.mk.injEq] at hstep
                rw [← hstep.2]
              · split at hstep
                · simp only [Except.error.injEq, Prod.mk.injEq] at hstep
                  rw [← hstep.2]
                · simp at hstep
            rw [hr]
            refine ⟨[st.out], ho, ?_⟩
            simp [hr]
        · intro h hh
          cases hr : recordOf lib w m with
          | none => rw [hr] at hh; simp at hh
          | some r =>
            rw [hr] at hh
            simp only [List.mem_singleton] at hh
            subst hh
            exact ⟨ht, rfl, rfl, hm⟩
      | ok w1 =>
        simp only
        obtain ⟨st, e, b, hst, he, hb, hw⟩ := matchStep_ok hstep
        have hr : recordOf lib w m = some st.out := by unfold recordOf; rw [hst]
        rw [hr]
        simp only
        have hs := sliceFrom_ok hb
        obtain ⟨t1, t2, t3⟩ := ht
        have hbl : (w.parser.buffer.length : Int) = stream.length - w.counter := by
          rw [t3, List.length_drop]; omega
        have hadd : AddInt64 w.counter e = w.counter + e := by
          unfold AddInt64; apply wrapInt64_id <;> omega
        have ht1 : Tracks stream w1 := by
          subst hw
          refine ⟨?_, ?_, ?_⟩
          · simp only [hadd]; omega
          · simp only [hadd]; omega
          · simp only [hadd]
            rw [hs.2.2, t3, List.drop_drop]
            congr 1
            omega
        have c1 : w1.parser.compiled = w.parser.compiled := by rw [hw]
        have f1 : w1.parser.fields = w.parser.fields := by rw [hw]
        have o1 : w1.parser.output = w.parser.output ++ [st.out] := by rw [hw]
        obtain ⟨⟨recs, i1, i2⟩, i3, i4⟩ := ih w1 ht1
        refine ⟨⟨st.out :: recs, ?_, ?_⟩, ?_, ?_⟩
        · rw [i1, o1, List.append_assoc]; rfl
        · simp only [List.map_cons, i2, hr]
        · intro h hh
          rcases List.mem_cons.mp hh with hh | hh
          · subst hh
            exact ⟨⟨t1, t2, t3⟩, rfl, rfl, hm⟩
          · obtain ⟨j1, j2, j3, j4⟩ := i3 h hh
            exact ⟨j1, by rw [j2, c1], by rw [j3, f1], j4⟩
        · intro w' hw'
          obtain ⟨j1, j2, j3⟩ := i4 w' hw'
          exact ⟨j1, by rw [j2, c1], by rw [j3, f1]⟩

theorem ConsumeAll_handOffs (lib : Lib) (fuel : Nat) (chunks : List (List Byte)) (w : World)
    (pre : List Byte) (ht : Tracks pre w)
    (hlen : ((pre ++ chunks.flatten).length : Int) ≤ 9223372036854775807) :
    (∃ recs, (ConsumeAll lib fuel w chunks).world.parser.output = w.parser.output ++ recs
        ∧ recs.map some = (handOffsAll lib fuel w chunks).map (fun h => recordOf lib h.1 h.2))
    ∧ (∀ h ∈ handOffsAll lib fuel w chunks, ∃ j, j ≤ chunks.length
        ∧ Tracks (pre ++ (chunks.take j).flatten) h.1
        ∧ h.1.parser.compiled = w.parser.compiled ∧ h.1.parser.fields = w.parser.fields
        ∧ h.1.parser.compiled.FindSubmatchIndex h.1.parser.buffer = some h.2) := by
  induction chunks generalizing w pre with
  | nil =>
    simp only [ConsumeAll, handOffsAll, Outcome.world]
    exact ⟨⟨[], by simp, rfl⟩, by simp⟩
  | cons chunk chunks ih =>
    rw [List.flatten_cons, ← List.append_assoc] at hlen
    have hlen1 : ((pre ++ chunk).length : Int) ≤ 9223372036854775807 := by
      simp only [List.length_append, Nat.cast_add] at hlen ⊢
      omega
    unfold ConsumeAll Consume handOffsAll
    cases happ : appendChunk w chunk with
    | error fw =>
      obtain ⟨f, w1⟩ := fw
      simp only [Outcome.world]
      refine ⟨⟨[], ?_, rfl⟩, by simp⟩
      rw [appendChunk_error_output happ, List.append_nil]
    | ok w1 =>
      simp only
      obtain ⟨hp, -, -⟩ := appendChunk_ok happ
      have hc : w1.parser.compiled = w.parser.compiled := by rw [hp]
      have hf : w1.parser.fields = w.parser.fields := by rw [hp]
      have ho : w1.parser.output = w.parser.output := by rw [hp]
      have ht1 : Tracks (pre ++ chunk) w1 := appendChunk_tracks ht hlen1 happ
      obtain ⟨⟨recs, i1, i2⟩, i3, i4⟩ := matchLoop_handOffs lib (pre ++ chunk) hlen1 fuel w1 ht1
      have hfirst : ∀ h ∈ handOffs lib fuel w1, ∃ j, j ≤ (chunk :: chunks).length
          ∧ Tracks (pre ++ ((chunk :: chunks).take j).flatten) h.1
          ∧ h.1.parser.compiled = w.parser.compiled ∧ h.1.parser.fields = w.parser.fields
          ∧ h.1.parser.compiled.FindSubmatchIndex h.1.parser.buffer = some h.2 := by
        intro h hh
        obtain ⟨j1, j2, j3, j4⟩ := i3 h hh
        refine ⟨1, by simp, ?_, by rw [j2, hc], by rw [j3, hf], j4⟩
        simpa using j1
      cases hml : matchLoop lib fuel w1 with
      | returned w2 =>
        simp only
        rw [hml] at i1
        simp only [Outcome.world] at i1
        obtain ⟨t2, c2, f2⟩ := i4 w2 hml
        obtain ⟨⟨recs2, k1, k2⟩, k3⟩ := ih w2 (pre ++ chunk) t2 hlen
        refine ⟨⟨recs ++ recs2, ?_, ?_⟩, ?_⟩
        · rw [k1, i1, ho, List.append_assoc]
        · rw [List.map_append, List.map_append, i2, k2]
        · intro h hh
          rcases List.mem_append.mp hh with hh | hh
          · exact hfirst h hh
          · obtain ⟨j, j0, j1, j2, j3, j4⟩ := k3 h hh
            refine ⟨j + 1, by simp; omega, ?_, by rw [j2, c2, hc], by rw [j3, f2, hf], j4⟩
            simpa [List.append_assoc] using j1
      | panicked f w2 =>
        simp only
        rw [hml] at i1
        refine ⟨⟨recs, by rw [i1, ho], by rw [List.append_nil, i2]⟩, ?_⟩
        intro h hh
        rw [List.append_nil] at hh
        exact hfirst h hh
      | running w2 =>
        simp only
        rw [hml] at i1
        refine ⟨⟨recs, by rw [i1, ho], by rw [List.append_nil, i2]⟩, ?_⟩
        intro h hh
        rw [List.append_nil] at hh
        exact hfirst h hh

theorem map_of_map_some {α β γ : Type} (f : β → Option α) (g : α → γ) (k : β → γ) :
    ∀ (recs : List α) (hs : List β), recs.map some = hs.map f →
      (∀ h ∈ hs, ∀ r, f h = some r → g r = k h) → recs.map g = hs.map k
  | [], [], _, _ => rfl
  | [], _ :: _, h, _ => by simp at h
  | _ :: _, [], h, _ => by simp at h
  | r :: recs, h :: hs, he, hall => by
    simp only [List.map_cons, List.cons.injEq] at he ⊢
    exact ⟨hall h (List.mem_cons_self _ _) r he.1.symm,
      map_of_map_some f g k recs hs he.2 (fun x hx => hall x (List.mem_cons_of_mem _ hx))⟩

theorem appendChunk_eq (w : World) (bytes : List Byte) (hmax : 0 ≤ w.parser.maxLineSize) :
    appendChunk w bytes = .ok
      { parser := { w.parser with
          buffer := (w.parser.buffer ++ bytes).drop
            ((w.parser.buffer.length : Int) + bytes.length - w.parser.maxLineSize).toNat },
        counter :=
          if (w.parser.buffer.length : Int) + bytes.length > w.parser.maxLineSize then
            AddInt64 w.counter ((w.parser.buffer.length : Int) + bytes.length - w.parser.maxLineSize)
          else w.counter,
        ticks := w.ticks } := by
  unfold appendChunk
  simp only [List.length_append, Nat.cast_add]
  split
  · rename_i hl
    unfold sliceFrom
    rw [if_pos (by simp only [List.length_append, Nat.cast_add]; omega)]
  · rename_i hl
    have : ((w.parser.buffer.length : Int) + bytes.length - w.parser.maxLineSize).toNat = 0 := by
      omega
    rw [this, List.drop_zero]

theorem appendChunk_split (w w1 : World) (a b : List Byte) (h : appendChunk w a = .ok w1) :
    appendChunk w1 b = appendChunk w (a ++ b) := by
  obtain ⟨hp, htick, hcase⟩ := appendChunk_ok h
  have hmax : 0 ≤ w.parser.maxLineSize := by
    rcases hcase with ⟨h1, -⟩ | ⟨-, h0, -⟩ <;> omega
  have hmax1 : 0 ≤ w1.parser.maxLineSize := by rw [hp]; exact hmax
  rw [appendChunk_eq w1 b hmax1, appendChunk_eq w (a ++ b) hmax]
  have hm1 : w1.parser.maxLineSize = w.parser.maxLineSize := by rw [hp]
  rcases hcase with ⟨h1, h2, h3⟩ | ⟨h1, h0, h2, hl, h3⟩
  · have hl : w1.parser.buffer.length = w.parser.buffer.length + a.length := by
      rw [h2, List.length_append]
    rw [hp, htick, h3]
    simp only [h2, List.length_append, Nat.cast_add, List.append_assoc, add_assoc]
  · have hb : List.drop ((w1.parser.buffer.length : Int) + b.length - w1.parser.maxLineSize).toNat
          (w1.parser.buffer ++ b)
        = List.drop ((w.parser.buffer.length : Int) + (a ++ b).length - w.parser.maxLineSize).toNat
          (w.parser.buffer ++ (a ++ b)) := by
      have e1 : w1.parser.buffer ++ b
          = List.drop (↑w.parser.buffer.length + ↑a.length - w.parser.maxLineSize).toNat
              (w.parser.buffer ++ a ++ b) := by
        rw [h2]
        refine (@List.drop_append_of_le_length _ (w.parser.buffer ++ a) b _ ?_).symm
        rw [List.length_append]; omega
      rw [e1, List.drop_drop, List.append_assoc, hl, hm1]
      congr 1
      simp only [List.length_append, Nat.cast_add]
      omega
    have hc : (if (w1.parser.buffer.length : Int) + b.length > w1.parser.maxLineSize then
          AddInt64 w1.counter ((w1.parser.buffer.length : Int) + b.length - w1.parser.maxLineSize)
        else w1.counter)
        = (if (w.parser.buffer.length : Int) + (a ++ b).length > w.parser.maxLineSize then
          AddInt64 w.counter ((w.parser.buffer.length : Int) + (a ++ b).length - w.parser.maxLineSize)
        else w.counter) := by
      simp only [List.length_append, Nat.cast_add]
      rw [hl, hm1, h3]
      split
      · split
        · unfold AddInt64
          rw [wrapInt64_add]
          congr 1
          omega
        · exfalso; omega
      · split
        · unfold AddInt64
          congr 2
          omega
        · exfalso; omega
    rw [hb, hc, htick, hp]


theorem ConsumeAll_single (lib : Lib) (fuel : Nat) (w : World) (chunk : List Byte) :
    ConsumeAll lib fuel w [chunk] = Consume lib fuel w chunk := by
  unfold ConsumeAll
  split
  · rename_i w' hw'
    rw [hw']; rfl
  · rfl

theorem bindLoop_eq (i : Int) (name : String) (fields : List FieldConfig) (found : Bool) :
    bindLoop i name fields found
      = (fields.map (fun f => if name = f.specName then { f with Group := i } else f),
         found || fields.any (fun f => decide (name = f.specName))) := by
  induction fields generalizing found with
  | nil => simp [bindLoop]
  | cons spec rest ih =>
    unfold bindLoop
    split
    · rename_i h
      rw [ih]
      simp [h]
    · rename_i h
      rw [ih]
      simp [h]

theorem specName_setGroup (f : FieldConfig) (i : Int) :
    ({ f with Group := i } : FieldConfig).specName = f.specName := rfl

theorem specName_autoField (i : Int) (name : String) : (autoField i name).specName = name := by
  simp [autoField, FieldConfig.specName, FieldConfig.zero]

theorem resolveLoop_eq (i : Int) (names : List String) (fields : List FieldConfig) :
    resolveLoop i names fields
      = fields.map (rebindAll i names) ++ autoFields i names (fields.map FieldConfig.specName) := by
  induction names generalizing i fields with
  | nil => simp [resolveLoop, rebindAll, autoFields]
  | cons name names ih =>
    unfold resolveLoop
    split
    · rename_i hne
      simp only [bindLoop_eq, Bool.false_or]
      have hkeys : (fields.map (fun f => if name = f.specName then { f with Group := i } else f)).map
          FieldConfig.specName = fields.map FieldConfig.specName := by
        rw [List.map_map]
        apply List.map_congr_left
        intro f _
        simp only [Function.comp]
        split <;> rfl
      have hmap : (fields.map (fun f => if name = f.specName then { f with Group := i } else f)).map
          (rebindAll (i + 1) names) = fields.map (rebindAll i (name :: names)) := by
        rw [List.map_map]
        apply List.map_congr_left
        intro f _
        simp only [Function.comp, rebindAll, hne, ne_eq, not_false_eq_true, true_and]
      split
      · rename_i hnf
        rw [ih]
        simp only [List.map_append, hkeys, hmap, List.map_cons, List.map_nil, specName_autoField,
          List.append_assoc]
        congr 1
        have : name ∉ fields.map FieldConfig.specName := by
          simp only [Bool.not_eq_eq_eq_not, Bool.not_true, List.any_eq_false, decide_eq_true_eq] at hnf
          simp only [List.mem_map, not_exists, not_and]
          intro f hf he
          exact hnf f hf he.symm
        simp [autoFields, hne, this]
      · rename_i hf
        rw [ih, hkeys, hmap]
        congr 1
        have : name ∈ fields.map FieldConfig.specName := by
          simp only [Bool.not_eq_eq_eq_not, Bool.not_true, List.any_eq_false, decide_eq_true_eq,
            not_forall, Classical.not_imp, not_not] at hf
          obtain ⟨f, hf1, hf2⟩ := hf
          exact List.mem_map.mpr ⟨f, hf1, hf2.symm⟩
        simp [autoFields, this]
    · rename_i hne
      simp only [ne_eq, not_not] at hne
      rw [ih]
      subst hne
      simp [rebindAll, autoFields]


theorem rebindAll_of_not_mem (i : Int) (names : List String) (f : FieldConfig)
    (h : ∀ name ∈ names, name ≠ "" → name ≠ f.specName) : rebindAll i names f = f := by
  induction names generalizing i with
  | nil => rfl
  | cons name names ih =>
    unfold rebindAll
    have h1 : ¬ (name ≠ "" ∧ name = f.specName) := fun hh =>
      h name (List.mem_cons_self _ _) hh.1 hh.2
    rw [if_neg h1]
    exact ih (i + 1) (fun n hn => h n (List.mem_cons_of_mem _ hn))

theorem rebindAll_nodup (i : Int) (names : List String) (f : FieldConfig)
    (hnd : (names.filter (fun n => decide (n ≠ ""))).Nodup) :
    rebindAll i names f
      = if f.specName ≠ "" ∧ f.specName ∈ names then
          { f with Group := i + (names.indexOf f.specName : Nat) }
        else f := by
  induction names generalizing i with
  | nil => simp [rebindAll]
  | cons name names ih =>
    unfold rebindAll
    by_cases hn : name ≠ "" ∧ name = f.specName
    · rw [if_pos hn]
      have hnot : name ∉ names := by
        intro hmem
        rw [List.filter_cons_of_pos (by simpa using hn.1)] at hnd
        exact (List.nodup_cons.mp hnd).1 (List.mem_filter.mpr ⟨hmem, by simpa using hn.1⟩)
      rw [rebindAll_of_not_mem]
      · have h2 : f.specName ≠ "" ∧ f.specName ∈ name :: names := by
          refine ⟨?_, ?_⟩
          · rw [← hn.2]; exact hn.1
          · rw [← hn.2]; exact List.mem_cons_self _ _
        rw [if_pos h2, ← hn.2, List.indexOf_cons_self]
        simp
      · intro n hmem _ he
        apply hnot
        rw [hn.2, ← specName_setGroup f i, ← he]
        exact hmem
    · rw [if_neg hn]
      have hnd' : (names.filter (fun n => decide (n ≠ ""))).Nodup := by
        by_cases he : name = ""
        · rw [List.filter_cons_of_neg (by simpa using he)] at hnd; exact hnd
        · rw [List.filter_cons_of_pos (by simpa using he)] at hnd
          exact (List.nodup_cons.mp hnd).2
      rw [ih (i + 1) hnd']
      by_cases hs : f.specName ≠ "" ∧ f.specName ∈ names
      · have hne : name ≠ f.specName := by
          intro he
          exact hn ⟨by rw [he]; exact hs.1, he⟩
        rw [if_pos hs, if_pos ⟨hs.1, List.mem_cons_of_mem _ hs.2⟩,
          List.indexOf_cons_ne _ hne]
        congr 1
        push_cast
        ring
      · rw [if_neg hs, if_neg]
        intro hh
        rcases List.mem_cons.mp hh.2 with he | he
        · exact hn ⟨by rw [← he]; exact hh.1, he.symm⟩
        · exact hs ⟨hh.1, he⟩


theorem autoFields_nodup (i : Nat) (names keys : List String)
    (hnd : (names.filter (fun n => decide (n ≠ ""))).Nodup) :
    autoFields (i : Int) names keys
      = ((names.enumFrom i).filter (fun jn => decide (jn.2 ≠ "" ∧ jn.2 ∉ keys))).map
          (fun jn => { Name := "", Alias := jn.2, Group := (jn.1 : Nat), Typ := FieldType.String,
                       Treatment := FieldTreatment.Simple, Format := "", Pattern := none,
                       Salt := "" }) := by
  induction names generalizing i keys with
  | nil => simp [autoFields]
  | cons name names ih =>
    have hnd' : (names.filter (fun n => decide (n ≠ ""))).Nodup := by
      by_cases he : name = ""
      · rw [List.filter_cons_of_neg (by simpa using he)] at hnd; exact hnd
      · rw [List.filter_cons_of_pos (by simpa using he)] at hnd
        exact (List.nodup_cons.mp hnd).2
    unfold autoFields
    rw [List.enumFrom_cons]
    have hcast : ((i : Int) + 1) = ((i + 1 : Nat) : Int) := by push_cast; rfl
    by_cases hn : name ≠ "" ∧ name ∉ keys
    · have hnot : name ∉ names := by
        intro hmem
        rw [List.filter_cons_of_pos (by simpa using hn.1)] at hnd
        exact (List.nodup_cons.mp hnd).1 (List.mem_filter.mpr ⟨hmem, by simpa using hn.1⟩)
      rw [if_pos hn, List.filter_cons_of_pos (by simpa using hn), List.map_cons, hcast,
        ih (i + 1) _ hnd']
      congr 1
      · rw [← hcast, rebindAll_of_not_mem]
        · rfl
        · intro n hmem _ he
          apply hnot
          rw [specName_autoField] at he
          rw [← he]; exact hmem
      · congr 1
        apply List.filter_congr
        intro jn hjn
        have hmem := List.snd_mem_of_mem_enumFrom hjn
        have hne : jn.2 ≠ name := fun he => hnot (he ▸ hmem)
        simp [hne]
    · rw [if_neg hn, List.filter_cons_of_neg (by simpa using hn), hcast, ih (i + 1) _ hnd']

theorem resolveLoop_nodup (names : List String) (fields : List FieldConfig)
    (hnd : (names.filter (fun n => decide (n ≠ ""))).Nodup) :
    resolveLoop 0 names fields = fields.map (boundField names) ++ autoGenerated names fields := by
  rw [resolveLoop_eq]
  congr 1
  · apply List.map_congr_left
    intro f _
    rw [rebindAll_nodup 0 names f hnd]
    simp [boundField]
  · have := autoFields_nodup 0 names (fields.map FieldConfig.specName) hnd
    simp only [Nat.cast_zero] at this
    rw [this]
    unfold autoGenerated List.enum
    congr 1
    apply List.filter_congr
    intro jn _
    simp only [List.mem_map, not_exists, not_and, ne_eq, decide_eq_decide]

theorem resolveLoop_getElem?_of_unbound (names : List String) (fields : List FieldConfig)
    (n : Nat) (f : FieldConfig) (hf : fields[n]? = some f)
    (h : ∀ name ∈ names, name ≠ "" → name ≠ f.specName) :
    (resolveLoop 0 names fields)[n]? = some f := by
  have hn : n < fields.length := by
    by_contra hc
    rw [List.getElem?_eq_none (by omega)] at hf
    simp at hf
  rw [resolveLoop_eq, List.getElem?_append_left (by simpa using hn), List.getElem?_map, hf]
  simp [rebindAll_of_not_mem 0 names f h]

theorem Record.kindsOK_set (r : Record) (k : String) (c : Column) (hr : r.kindsOK)
    (hc : c.kindMatches = true ∨ c.hashShaped = true) : (r.set k c).kindsOK := by
  induction r with
  | nil =>
    intro kc hkc
    simp only [Record.set, List.mem_singleton] at hkc
    rw [hkc]; exact hc
  | cons kc0 rest ih =>
    obtain ⟨k0, c0⟩ := kc0
    intro kc hkc
    unfold Record.set at hkc
    split at hkc
    · rcases List.mem_cons.mp hkc with h | h
      · rw [h]; exact hc
      · exact hr kc (List.mem_cons_of_mem _ h)
    · rcases List.mem_cons.mp hkc with h | h
      · rw [h]; exact hr (k0, c0) (List.mem_cons_self _ _)
      · exact ih (fun x hx => hr x (List.mem_cons_of_mem _ hx)) kc h

theorem synthetic_kindsOK (lib : Lib) (w : World) : (synthetic lib w).kindsOK := by
  unfold synthetic
  refine Record.kindsOK_set _ _ _ (Record.kindsOK_set _ _ _ (Record.kindsOK_set _ _ _
    (Record.kindsOK_set _ _ _ (Record.kindsOK_set _ _ _ ?_ ?_) ?_) ?_) ?_) ?_
  · intro kc hkc; simp at hkc
  all_goals exact Or.inl rfl

theorem fieldStep_kindsOK {lib : Lib} {buffer : List Byte} {m : List Int} {st st' : FieldState}
    {spec : FieldConfig} (h : fieldStep lib buffer m st spec = .ok st') (hst : st.out.kindsOK) :
    st'.out.kindsOK := by
  unfold fieldStep at h
  simp only at h
  repeat' split at h
  all_goals first
    | (simp at h; done)
    | (simp only [Except.ok.injEq] at h; subst h; exact hst)
    | (simp only [Except.ok.injEq] at h; subst h
       refine Record.kindsOK_set _ _ _ hst ?_
       simp_all [Column.kindMatches, Column.hashShaped])


theorem fieldLoop_kindsOK {lib : Lib} {buffer : List Byte} {m : List Int}
    (fields : List FieldConfig) (st st' : FieldState)
    (h : fieldLoop lib buffer m st fields = .ok st') (hst : st.out.kindsOK) :
    st'.out.kindsOK := by
  induction fields generalizing st with
  | nil =>
    simp only [fieldLoop, Except.ok.injEq] at h
    rw [← h]; exact hst
  | cons spec rest ih =>
    unfold fieldLoop at h
    split at h
    · simp at h
    · rename_i st1 h1
      exact ih st1 h (fieldStep_kindsOK h1 hst)

/-- The last element of a list that ends in a non-empty list is the last
element of that ending. -/
theorem getLast?_append_cons (l t : List Char) (a : Char) :
    (l ++ a :: t).getLast? = (a :: t).getLast? := by
  rw [List.getLast?_append]
  cases h : (a :: t).getLast? with
  | none => simp at h
  | some x => rfl

/-- A property of the records built by the field loop holds of every record
in the channel after the match loop, whatever the outcome. -/
theorem matchLoop_output_forall (lib : Lib) (P : Record → Prop)
    (hP : ∀ (w : World) (m : List Int) (st : FieldState),
      fieldLoop lib w.parser.buffer m ⟨synthetic lib w, [], w.ticks + 1⟩ w.parser.fields = .ok st →
      P st.out)
    (fuel : Nat) (w : World) (h0 : ∀ r ∈ w.parser.output, P r) :
    ∀ r ∈ (matchLoop lib fuel w).world.parser.output, P r := by
  induction fuel generalizing w with
  | zero =>
    unfold matchLoop
    split <;> exact h0
  | succ n ih =>
    unfold matchLoop
    split
    · exact h0
    · rename_i m hm
      simp only
      split
      · rename_i f w1 he
        simp only [Outcome.world]
        unfold matchStep at he
        split at he
        · simp only [Except.error.injEq, Prod.mk.injEq] at he
          rw [← he.2]; exact h0
        · rename_i st hst
          have hout : ∀ r ∈ w.parser.output ++ [st.out], P r := by
            intro r hr
            rcases List.mem_append.mp hr with h3 | h3
            · exact h0 r h3
            · rw [List.mem_singleton.mp h3]; exact hP w m st hst
          split at he
          · simp only [Except.error.injEq, Prod.mk.injEq] at he
            rw [← he.2]; exact hout
          · split at he
            · simp only [Except.error.injEq, Prod.mk.injEq] at he
              rw [← he.2]; exact hout
            · simp at he
      · rename_i w1 hw1
        obtain ⟨st, e, b, hst, -, -, hw⟩ := matchStep_ok hw1
        apply ih w1
        rw [hw]
        intro r hr
        rcases List.mem_append.mp hr with h3 | h3
        · exact h0 r h3
        · rw [List.mem_singleton.mp h3]; exact hP w m st hst

theorem Consume_output_forall (lib : Lib) (P : Record → Prop)
    (hP : ∀ (w : World) (m : List Int) (st : FieldState),
      fieldLoop lib w.parser.buffer m ⟨synthetic lib w, [], w.ticks + 1⟩ w.parser.fields = .ok st →
      P st.out)
    (fuel : Nat) (w : World) (bytes : List Byte) (h0 : ∀ r ∈ w.parser.output, P r) :
    ∀ r ∈ (Consume lib fuel w bytes).world.parser.output, P r := by
  unfold Consume
  split
  · rename_i f w1 he
    simp only [Outcome.world]
    rw [appendChunk_error_output he]; exact h0
  · rename_i w1 hok
    obtain ⟨hp, -, -⟩ := appendChunk_ok hok
    apply matchLoop_output_forall lib P hP fuel w1
    rw [hp]; exact h0

theorem Consume_kindsOK (lib : Lib) (fuel : Nat) (w : World) (bytes : List Byte)
    (h0 : ∀ r ∈ w.parser.output, Record.kindsOK r) :
    ∀ r ∈ (Consume lib fuel w bytes).world.parser.output, Record.kindsOK r :=
  Consume_output_forall lib Record.kindsOK
    (fun w _ st hst => fieldLoop_kindsOK w.parser.fields _ st hst (synthetic_kindsOK lib w))
    fuel w bytes h0

theorem matchLoop_successive (lib : Lib) (fuel : Nat) (w w' : World)
    (h : matchLoop lib fuel w = .returned w') :
    Successive w.parser.compiled w.parser.buffer (matchTrace lib fuel w) w'.parser.buffer
    ∧ (∃ recs, w'.parser.output = w.parser.output ++ recs
        ∧ recs.map some = (matchTrace lib fuel w).map (fun p => recordOf lib p.1 p.2))
    ∧ w'.parser.compiled = w.parser.compiled
    ∧ w'.parser.compiled.FindSubmatchIndex w'.parser.buffer = none := by
  induction fuel generalizing w with
  | zero =>
    unfold matchLoop at h
    unfold matchTrace
    split at h
    · rename_i hm
      simp only [Outcome.returned.injEq] at h
      subst h
      simp [hm, Successive]
    · simp at h
  | succ n ih =>
    unfold matchLoop at h
    unfold matchTrace
    split at h
    · rename_i hm
      simp only [Outcome.returned.injEq] at h
      subst h
      simp [hm, Successive]
    · rename_i m hm
      simp only at h
      simp only [hm]
      split at h
      · simp at h
      · rename_i w1 hok
        rw [hok]
        simp only
        obtain ⟨st, e, b, hst, he, hb, hw⟩ := matchStep_ok hok
        have hs := sliceFrom_ok hb
        have h1 : w1.parser.buffer = b := by rw [hw]
        have h2 : w1.parser.compiled = w.parser.compiled := by rw [hw]
        have h3 : w1.parser.output = w.parser.output ++ [st.out] := by rw [hw]
        obtain ⟨i1, ⟨recs, i2, i3⟩, i4, i5⟩ := ih w1 h
        rw [h1, h2] at i1
        refine ⟨?_, ?_, by rw [i4, h2], i5⟩
        · refine ⟨rfl, hm, e, he, hs.1, hs.2.1, ?_⟩
          rw [← hs.2.2]; exact i1
        · refine ⟨st.out :: recs, ?_, ?_⟩
          · rw [i2, h3, List.append_assoc]; rfl
          · simp only [List.map_cons, i3]
            congr 1
            unfold recordOf
            rw [hst]

theorem fieldStep_ok_indep {lib : Lib} {buffer : List Byte} {m : List Int}
    {st st1 : FieldState} {spec : FieldConfig} (h : fieldStep lib buffer m st spec = .ok st1)
    (st' : FieldState) : ∃ st1', fieldStep lib buffer m st' spec = .ok st1' := by
  unfold fieldStep at h ⊢
  simp only at h ⊢
  repeat' split at h
  all_goals first
    | (simp at h; done)
    | (simp_all; done)
    | (simp_all; rw [if_neg (by omega)]; exact ⟨_, rfl⟩)

theorem fieldLoop_ok_indep {lib : Lib} {buffer : List Byte} {m : List Int}
    (fields : List FieldConfig) (st st1 : FieldState)
    (h : fieldLoop lib buffer m st fields = .ok st1) (st' : FieldState) :
    ∃ st1', fieldLoop lib buffer m st' fields = .ok st1' := by
  induction fields generalizing st st' with
  | nil => exact ⟨st', rfl⟩
  | cons spec rest ih =>
    unfold fieldLoop at h ⊢
    split at h
    · simp at h
    · rename_i st2 h2
      obtain ⟨st2', h2'⟩ := fieldStep_ok_indep h2 st'
      rw [h2']
      exact ih st2 h st2'


theorem matchStep_zero_end {lib : Lib} {x : World} {m : List Int} {st : FieldState}
    (hfl : fieldLoop lib x.parser.buffer m ⟨synthetic lib x, [], x.ticks + 1⟩ x.parser.fields
      = .ok st)
    (he : index m 1 = .ok 0) :
    ∃ x1, matchStep lib x m = .ok x1 ∧ x1.parser.buffer = x.parser.buffer
      ∧ x1.counter = AddInt64 x.counter 0 ∧ x1.parser.compiled = x.parser.compiled
      ∧ x1.parser.fields = x.parser.fields
      ∧ x1.parser.output.length = x.parser.output.length + 1 := by
  unfold matchStep
  rw [hfl]
  simp only [he]
  have hs : sliceFrom x.parser.buffer 0 = .ok x.parser.buffer := by
    unfold sliceFrom
    simp
  rw [hs]
  exact ⟨_, rfl, rfl, rfl, rfl, rfl, by simp⟩

theorem matchLoop_stuck (lib : Lib) (m : List Int) (he : index m 1 = .ok 0) (fuel : Nat)
    (x : World) (hm : x.parser.compiled.FindSubmatchIndex x.parser.buffer = some m)
    (hfl : ∃ st, fieldLoop lib x.parser.buffer m ⟨synthetic lib x, [], x.ticks + 1⟩
      x.parser.fields = .ok st)
    (hc : wrapInt64 x.counter = x.counter) :
    ∃ xf, matchLoop lib fuel x = .running xf ∧ xf.parser.buffer = x.parser.buffer
      ∧ xf.counter = x.counter ∧ xf.parser.compiled = x.parser.compiled
      ∧ xf.parser.output.length = x.parser.output.length + fuel := by
  induction fuel generalizing x with
  | zero =>
    unfold matchLoop
    rw [hm]
    exact ⟨x, rfl, rfl, rfl, rfl, rfl⟩
  | succ n ih =>
    obtain ⟨st, hst⟩ := hfl
    obtain ⟨x1, h1, h2, h3, h4, h5, h6⟩ := matchStep_zero_end hst he
    have hc1 : x1.counter = x.counter := by
      rw [h3]; unfold AddInt64; rw [Int.add_zero]; exact hc
    obtain ⟨st1, hst1⟩ := fieldLoop_ok_indep _ _ _ hst ⟨synthetic lib x1, [], x1.ticks + 1⟩
    obtain ⟨xf, f1, f2, f3, f4, f5⟩ := ih x1 (by rw [h4, h2]; exact hm)
      ⟨st1, by rw [h2, h5]; exact hst1⟩ (by rw [hc1]; exact hc)
    refine ⟨xf, ?_, by rw [f2, h2], by rw [f3, hc1], by rw [f4, h4], by rw [f5, h6]; omega⟩
    unfold matchLoop
    rw [hm]
    simp only [h1]
    exact f1

theorem matchEnds_zero_running (lib : Lib) (k : Nat) (w : World)
    (hz : (0 : Int) ∈ matchEnds lib k w) (hc : wrapInt64 w.counter = w.counter) (n : Nat) :
    (matchLoop lib n w).isRunning = true := by
  induction k generalizing w n with
  | zero =>
    unfold matchEnds at hz
    split at hz <;> simp at hz
  | succ k ih =>
    unfold matchEnds at hz
    split at hz
    · simp at hz
    · rename_i m hm
      simp only at hz
      split at hz
      · simp at hz
      · rename_i w1 hok
        obtain ⟨st, e, b, hst, he, hb, hw⟩ := matchStep_ok hok
        have hget : m.getD 1 0 = e := by
          have := (index_ok he).2
          simp only [Int.toNat_one] at this
          simp [List.getD, this]
        rcases List.mem_cons.mp hz with h0 | h0
        · rw [hget] at h0
          rw [← h0] at he
          obtain ⟨xf, f1, -⟩ := matchLoop_stuck lib m he n w hm ⟨st, hst⟩ hc
          rw [f1]; rfl
        · cases n with
          | zero =>
            unfold matchLoop
            rw [hm]; rfl
          | succ n =>
            have hc1 : wrapInt64 w1.counter = w1.counter := by
              have h2 : w1.counter = AddInt64 w.counter e := by rw [hw]
              rw [h2]; unfold AddInt64 wrapInt64; omega
            have := ih w1 h0 hc1 n
            unfold matchLoop
            rw [hm]
            simp only [hok]
            exact this


theorem matchEnds_succ {lib : Lib} {w w1 : World} {m : List Int} (k : Nat)
    (hm : w.parser.compiled.FindSubmatchIndex w.parser.buffer = some m)
    (hok : matchStep lib w m = .ok w1) :
    matchEnds lib (k + 1) w = m.getD 1 0 :: matchEnds lib k w1 := by
  conv_lhs => unfold matchEnds
  simp only [hm, hok]

theorem matchLoop_progress (lib : Lib) (n : Nat) (w : World)
    (hz : ∀ k, (0 : Int) ∉ matchEnds lib k w) :
    (w.parser.buffer.length < n → (matchLoop lib n w).isRunning = false)
    ∧ (∀ w', (matchLoop lib n w = .returned w' ∨ matchLoop lib n w = .running w') →
        w'.parser.output.length + w'.parser.buffer.length
          ≤ w.parser.output.length + w.parser.buffer.length) := by
  induction n generalizing w with
  | zero =>
    refine ⟨fun h => absurd h (Nat.not_lt_zero _), ?_⟩
    intro w' h
    unfold matchLoop at h
    split at h
    · simp only [Outcome.returned.injEq, or_false, reduceCtorEq] at h
      rw [← h]
    · simp only [Outcome.running.injEq, false_or, reduceCtorEq] at h
      rw [← h]
  | succ n ih =>
    unfold matchLoop
    split
    · refine ⟨fun _ => rfl, ?_⟩
      intro w' h
      simp only [Outcome.returned.injEq, or_false, reduceCtorEq] at h
      rw [← h]
    · rename_i m hm
      simp only
      split
      · refine ⟨fun _ => rfl, ?_⟩
        intro w' h
        simp at h
      · rename_i w1 hok
        obtain ⟨st, e, b, hst, he, hb, hw⟩ := matchStep_ok hok
        have hs := sliceFrom_ok hb
        have hget : m.getD 1 0 = e := by
          have := (index_ok he).2
          simp only [Int.toNat_one] at this
          simp [List.getD, this]
        have he0 : e ≠ 0 := by
          intro h0
          apply hz 1
          rw [matchEnds_succ 0 hm hok, hget, h0]
          exact List.mem_cons_self _ _
        have hz1 : ∀ k, (0 : Int) ∉ matchEnds lib k w1 := by
          intro k hk
          apply hz (k + 1)
          rw [matchEnds_succ k hm hok]
          exact List.mem_cons_of_mem _ hk
        have h1 : w1.parser.buffer = b := by rw [hw]
        have h3 : w1.parser.output = w.parser.output ++ [st.out] := by rw [hw]
        have hbl : b.length + 1 ≤ w.parser.buffer.length := by
          rw [hs.2.2, List.length_drop]; omega
        obtain ⟨i1, i2⟩ := ih w1 hz1
        rw [h1] at i1
        refine ⟨fun hlt => i1 (by omega), ?_⟩
        intro w' h
        have := i2 w' h
        rw [h1, h3, List.length_append, List.length_singleton] at this
        omega

theorem index_of_lt {m : List Int} {i : Int} (h0 : 0 ≤ i) (h1 : i < m.length) :
    ∃ v, index m i = .ok v := by
  unfold index
  rw [if_neg (by omega)]
  have : i.toNat < m.length := by omega
  rw [List.getElem?_eq_getElem this]
  exact ⟨_, rfl⟩

theorem Split_last (sep : Char) (s : List Char) :
    ∃ t, (Split sep s).getLast? = some t ∧ sep ∉ t
      ∧ ((s = t ∧ Split sep s = [t]) ∨ (∃ pre, s = pre ++ sep :: t) ∧ 2 ≤ (Split sep s).length) := by
  induction s with
  | nil => exact ⟨[], rfl, by simp, Or.inl ⟨rfl, rfl⟩⟩
  | cons c cs ih =>
    obtain ⟨t, h1, h2, h3⟩ := ih
    unfold Split
    by_cases hc : c = sep
    · rw [if_pos hc]
      have hne : Split sep cs ≠ [] := by
        intro h; rw [h] at h1; simp at h1
      obtain ⟨x, xs, hx⟩ := List.exists_cons_of_ne_nil hne
      refine ⟨t, ?_, h2, Or.inr ⟨?_, ?_⟩⟩
      · rw [hx, List.getLast?_cons_cons, ← hx]; exact h1
      · rcases h3 with ⟨h3, -⟩ | ⟨⟨pre, h3⟩, -⟩
        · exact ⟨[], by rw [hc, h3]; rfl⟩
        · exact ⟨sep :: pre, by rw [hc, h3]; rfl⟩
      · rw [hx]; simp
    · rw [if_neg hc]
      rcases h3 with ⟨h3, h4⟩ | ⟨⟨pre, h3⟩, h4⟩
      · rw [h4]
        refine ⟨c :: t, rfl, ?_, Or.inl ⟨by rw [h3], rfl⟩⟩
        intro hmem
        rcases List.mem_cons.mp hmem with h | h
        · exact hc h.symm
        · exact h2 h
      · match hs : Split sep cs with
        | [] => rw [hs] at h4; simp at h4
        | [x] => rw [hs] at h4; simp at h4
        | x :: y :: ys =>
          rw [hs] at h1
          refine ⟨t, ?_, h2, Or.inr ⟨⟨c :: pre, by rw [h3]; rfl⟩, by simp⟩⟩
          simp only
          rw [List.getLast?_cons_cons] at h1 ⊢
          exact h1

theorem RawStringEncoder_writes (r : Record)
    (h : ∀ kc ∈ r, kc.2.Typ = .String → ∃ s, kc.2.Value = .string s) :
    (RawStringEncoder.Encode r).fault = none
    ∧ (RawStringEncoder.Encode r).writes = r.filterMap rawLine := by
  induction r with
  | nil => exact ⟨rfl, rfl⟩
  | cons kc rest ih =>
    obtain ⟨k, v⟩ := kc
    obtain ⟨i1, i2⟩ := ih (fun x hx => h x (List.mem_cons_of_mem _ hx))
    unfold RawStringEncoder.Encode
    by_cases hT : v.Typ = .String
    · obtain ⟨s, hs⟩ := h (k, v) (List.mem_cons_self _ _) hT
      simp only at hs
      rw [if_pos hT, hs]
      simp only
      refine ⟨i1, ?_⟩
      rw [i2, List.filterMap_cons]
      simp [rawLine, hT, hs]
    · rw [if_neg hT]
      refine ⟨i1, ?_⟩
      rw [i2, List.filterMap_cons]
      have : rawLine (k, v) = none := by
        unfold rawLine
        split
        · rename_i h1 _
          exact absurd h1 hT
        · rfl
      rw [this]

theorem StatsdEncoder_fault (fmt : Fmt) (r : Record) :
    ((StatsdEncoder.Encode fmt r).fault = none
      ↔ ∀ kc ∈ r, kc.2.Treatment = .Metric → ∃ x, kc.2.Value = .float64 x)
    ∧ ((StatsdEncoder.Encode fmt r).fault = none
      ∨ (StatsdEncoder.Encode fmt r).fault = some .typeAssertion) := by
  induction r with
  | nil => exact ⟨by simp [StatsdEncoder.Encode], Or.inl rfl⟩
  | cons kc rest ih =>
    obtain ⟨k, v⟩ := kc
    obtain ⟨i1, i2⟩ := ih
    unfold StatsdEncoder.Encode
    split
    · rename_i hT
      simp only [List.mem_cons, forall_eq_or_imp, hT, reduceCtorEq, false_implies, true_and]
      exact ⟨i1, i2⟩
    · rename_i hT
      split
      · rename_i x hx
        simp only [List.mem_cons, forall_eq_or_imp, hT, hx, Value.float64.injEq, exists_eq',
          implies_true, true_and]
        exact ⟨i1, i2⟩
      · rename_i hx
        refine ⟨?_, Or.inr rfl⟩
        simp only [reduceCtorEq, false_iff, not_forall]
        refine ⟨(k, v), List.mem_cons_self _ _, hT, ?_⟩
        rintro ⟨x, hx'⟩
        exact hx x hx'
    · rename_i hT
      simp only [List.mem_cons, forall_eq_or_imp, hT, reduceCtorEq, false_implies, true_and]
      exact ⟨i1, i2⟩
    · rename_i h1 h2 h3
      have : ¬ v.Treatment = .Metric := fun h => h2 h
      simp only [List.mem_cons, forall_eq_or_imp, this, false_implies, true_and]
      exact ⟨i1, i2⟩

theorem StatsdEncoder_writes (fmt : Fmt) (r : Record)
    (hG : ∀ kc ∈ r, kc.2.Treatment = .Gauge ∨ kc.2.Treatment = .Counter →
      ∃ n, kc.2.Value = .int64 n)
    (hM : ∀ kc ∈ r, kc.2.Treatment = .Metric → ∃ x, kc.2.Value = .float64 x) :
    (StatsdEncoder.Encode fmt r).writes = r.filterMap statsdLine
    ∧ (StatsdEncoder.Encode fmt r).writes.length
        = (r.filter (fun kc => kc.2.isStat)).length := by
  induction r with
  | nil => exact ⟨rfl, rfl⟩
  | cons kc rest ih =>
    obtain ⟨k, v⟩ := kc
    obtain ⟨i1, i2⟩ := ih (fun x hx => hG x (List.mem_cons_of_mem _ hx))
      (fun x hx => hM x (List.mem_cons_of_mem _ hx))
    unfold StatsdEncoder.Encode
    split
    · rename_i hT
      obtain ⟨n, hn⟩ := hG (k, v) (List.mem_cons_self _ _) (Or.inl hT)
      simp only at hn
      have hl : statsdLine (k, v) = some (k ++ ":" ++ formatD n ++ "|g") := by
        simp [statsdLine, hT, hn]
      have hs : Column.isStat v = true := by simp [Column.isStat, hT]
      refine ⟨?_, ?_⟩
      · simp only [List.filterMap_cons, hl, i1, hn, sprintfD]
      · simp only [List.filter_cons, hs, if_true, List.length_cons, i2]
    · rename_i hT
      obtain ⟨x, hx⟩ := hM (k, v) (List.mem_cons_self _ _) hT
      simp only at hx
      have hl : statsdLine (k, v)
          = some (k ++ "-us:" ++ sprintfF (x.mul Float64.thousand) ++ "|ms") := by
        simp [statsdLine, hT, hx]
      have hs : Column.isStat v = true := by simp [Column.isStat, hT]
      rw [hx]
      refine ⟨?_, ?_⟩
      · simp only [List.filterMap_cons, hl, i1]
      · simp only [List.filter_cons, hs, if_true, List.length_cons, i2]
    · rename_i hT
      obtain ⟨n, hn⟩ := hG (k, v) (List.mem_cons_self _ _) (Or.inr hT)
      simp only at hn
      have hl : statsdLine (k, v) = some (k ++ ":" ++ formatD n ++ "|c") := by
        simp [statsdLine, hT, hn]
      have hs : Column.isStat v = true := by simp [Column.isStat, hT]
      refine ⟨?_, ?_⟩
      · simp only [List.filterMap_cons, hl, i1, hn, sprintfD]
      · simp only [List.filter_cons, hs, if_true, List.length_cons, i2]
    · rename_i h1 h2 h3
      have hl : statsdLine (k, v) = none := by
        unfold statsdLine
        split
        · rename_i h _; exact absurd h h1
        · rename_i h _; exact absurd h h3
        · rename_i h _; exact absurd h h2
        · rfl
      have hs : ¬ (Column.isStat v = true) := by
        simp only [Column.isStat, Bool.decide_or, Bool.or_eq_true, decide_eq_true_eq, not_or]
        exact ⟨h1, h3, h2⟩
      refine ⟨?_, ?_⟩
      · simp only [List.filterMap_cons, hl, i1]
      · simp only [List.filter_cons, hs, Bool.false_eq_true, if_false, i2]

theorem digitChar_isDigit (d : Nat) : (digitChar d).isDigit = true := by
  unfold digitChar
  have h : d % 10 < 10 := Nat.mod_lt _ (by decide)
  generalize d % 10 = i at h
  interval_cases i <;> decide

theorem natDigits_isDigit (fuel n : Nat) : ∀ c ∈ natDigits fuel n, c.isDigit = true := by
  induction fuel generalizing n with
  | zero =>
    intro c hc
    simp only [natDigits, List.mem_singleton] at hc
    rw [hc]; exact digitChar_isDigit n
  | succ f ih =>
    intro c hc
    unfold natDigits at hc
    split at hc
    · simp only [List.mem_singleton] at hc
      rw [hc]; exact digitChar_isDigit n
    · rcases List.mem_append.mp hc with h | h
      · exact ih _ c h
      · simp only [List.mem_singleton] at h
        rw [h]; exact digitChar_isDigit n

theorem sprintfF_finite (x : Float64) (h : x.isFinite = true) :
    ∃ ip fd : List Char, sprintfF x = String.mk (ip ++ '.' :: fd) ∧ fd.length = 6
      ∧ (∀ c ∈ fd, c.isDigit = true) ∧ '.' ∉ ip := by
  have hne : x.expField ≠ 2047 := by simpa [Float64.isFinite] using h
  have h1 : x.isNaN = false := by simp [Float64.isNaN, hne]
  have h2 : x.isInf = false := by simp [Float64.isInf, hne]
  unfold sprintfF
  simp only [h1, h2, Bool.false_eq_true, if_false]
  refine ⟨(if x.sign = true then ['-'] else [])
      ++ natDigits (x.micros / 1000000) (x.micros / 1000000),
    [digitChar (x.micros / 100000), digitChar (x.micros / 10000), digitChar (x.micros / 1000),
      digitChar (x.micros / 100), digitChar (x.micros / 10), digitChar x.micros], ?_, rfl, ?_, ?_⟩
  · simp
  · intro c hc
    simp only [List.mem_cons, List.mem_singleton, List.not_mem_nil, or_false] at hc
    rcases hc with h | h | h | h | h | h <;> rw [h] <;> exact digitChar_isDigit _
  · intro hmem
    rcases List.mem_append.mp hmem with h | h
    · split at h
      · simp only [List.mem_singleton] at h
        exact absurd h (by decide)
      · simp at h
    · have := natDigits_isDigit _ _ _ h
      exact absurd this (by decide)

/-! ## Claims -/

/-- C1 (buffer bound).  For a parser with `maxLineSize ≥ 0`, whatever the
starting buffer and the chunk: when `Consume` returns, the buffer is at most
`maxLineSize` long; the same holds of the state reached by every other
outcome of the call; and starting from a buffer within the bound (the empty
one included), it holds of the state reached by any sequence of `Consume`
calls. -/
theorem C1_buffer_bound (lib : Lib) (fuel : Nat) (w : World)
    (hmax : 0 ≤ w.parser.maxLineSize) :
    (∀ (bytes : List Byte) (w' : World), Consume lib fuel w bytes = .returned w' →
        (w'.parser.buffer.length : Int) ≤ w.parser.maxLineSize)
    ∧ (∀ bytes : List Byte,
        ((Consume lib fuel w bytes).world.parser.buffer.length : Int) ≤ w.parser.maxLineSize)
    ∧ (∀ chunks : List (List Byte),
        (w.parser.buffer.length : Int) ≤ w.parser.maxLineSize →
        ((ConsumeAll lib fuel w chunks).world.parser.buffer.length : Int)
          ≤ w.parser.maxLineSize) := by
  refine ⟨?_, fun bytes => (Consume_buffer_le lib fuel w bytes hmax).1,
    fun chunks hbuf => ConsumeAll_buffer_le lib fuel chunks w hmax hbuf⟩
  intro bytes w' hret
  have h := (Consume_buffer_le lib fuel w bytes hmax).1
  rw [hret] at h
  exact h

/-- C1 at a concrete input: pattern `b`, line size 2, chunk `xxbab`; the call
returns, one record was handed off, and the buffer is within the bound. -/
theorem C1_buffer_bound_witness :
    (0 : Int) ≤ 2
    ∧ (Consume exampleLib 3 (exampleWorld patB [] 2) "xxbab".data).isReturned = true
    ∧ (Consume exampleLib 3 (exampleWorld patB [] 2) "xxbab".data).world.parser.output.length = 1
    ∧ ((Consume exampleLib 3 (exampleWorld patB [] 2) "xxbab".data).world.parser.buffer.length
        : Int) ≤ 2 :=
  ⟨by decide, by decide, by decide,
   (C1_buffer_bound exampleLib 3 (exampleWorld patB [] 2) (by decide)).2.1 "xxbab".data⟩

/-- C2 as stated fails at the edge of the counter's type: with the counter at
the largest `int64`, line size 0 and a one-byte chunk, `Consume` returns and
the counter has wrapped to the smallest `int64`, so it decreased. -/
theorem C2_counter_wraps :
    (Consume exampleLib 0
        { exampleWorld patB [] 0 with counter := 9223372036854775807 } "a".data).isReturned = true
    ∧ (Consume exampleLib 0
        { exampleWorld patB [] 0 with counter := 9223372036854775807 } "a".data).world.counter
        = -9223372036854775808
    ∧ ¬ ((9223372036854775807 : Int) ≤ (Consume exampleLib 0
        { exampleWorld patB [] 0 with counter := 9223372036854775807 } "a".data).world.counter) := by
  decide

/-- C2 (offset accounting), amended: for every `Consume` call that returns,
started with the counter in the `int64` range and at least
`len(buffer) + len(chunk)` below its maximum, the counter does not decrease,
its increase is `len(buffer_before) + len(chunk) - len(buffer_after)`, and
that is the overflow excess plus the sum of the end positions of the matches
completed in the call. -/
theorem C2_offset_accounting (lib : Lib) (fuel : Nat) (w w' : World) (bytes : List Byte)
    (hlo : -9223372036854775808 ≤ w.counter)
    (hhi : w.counter + w.parser.buffer.length + bytes.length ≤ 9223372036854775807)
    (hret : Consume lib fuel w bytes = .returned w') :
    w.counter ≤ w'.counter
    ∧ w'.counter - w.counter
        = (w.parser.buffer.length : Int) + bytes.length - w'.parser.buffer.length
    ∧ w'.counter - w.counter = overflowExcess w bytes + (consumeEnds lib fuel w bytes).sum := by
  obtain ⟨h1, h2, h3⟩ := Consume_counter lib fuel w w' bytes hret hlo hhi
  exact ⟨by omega, h1, h3⟩

/-- C2 at a concrete input: pattern `b`, line size 2, chunk `xxbab` from the
empty buffer and counter 0.  Three bytes overflow, the match ends at 2, the
counter ends at 5 and the buffer is empty. -/
theorem C2_offset_accounting_witness :
    (Consume exampleLib 3 (exampleWorld patB [] 2) "xxbab".data).world.counter = 5
    ∧ overflowExcess (exampleWorld patB [] 2) "xxbab".data = 3
    ∧ consumeEnds exampleLib 3 (exampleWorld patB [] 2) "xxbab".data = [2]
    ∧ (exampleWorld patB [] 2).counter
        ≤ (Consume exampleLib 3 (exampleWorld patB [] 2) "xxbab".data).world.counter :=
  ⟨by decide, by decide, by decide,
   (C2_offset_accounting exampleLib 3 (exampleWorld patB [] 2)
      (Consume exampleLib 3 (exampleWorld patB [] 2) "xxbab".data).world "xxbab".data
      (by decide) (by decide) rfl).1⟩

/-- C3 as stated fails when the match does not start the buffer: pattern `b`,
chunk `ab` from the empty buffer and counter 0.  The match is `[1, 2]`, so it
starts at byte 1 of the stream; the one record handed off has 0 in its
`_offset` column, not 1. -/
theorem C3_offset_not_match_start :
    patB.FindSubmatchIndex "ab".data = some [1, 2]
    ∧ (Consume exampleLib 1 (exampleWorld patB [] 10) "ab".data).world.parser.output.map
        (fun r => r.get "_offset") = [some ⟨.Integer, .Simple, .int64 0⟩]
    ∧ (Consume exampleLib 1 (exampleWorld patB [] 10) "ab".data).world.parser.output.map
        (fun r => r.get "_offset") ≠ [some ⟨.Integer, .Simple, .int64 1⟩] := by
  decide

/-- C3 (the `_offset` column), amended: for a parser started with an empty
buffer, an empty channel and counter 0, no field aliased `_offset`, and a
stream of at most 2^63 - 1 bytes, the records handed off by any sequence of
`Consume` calls are, in order, the records built at the hand-offs of the run,
and the `_offset` column of each is an Integer holding the counter read when
its match was found.  At that moment, for the concatenation `fed` of the
chunks of the calls made so far, the counter is the number of bytes of `fed`
that precede the buffer searched (the buffer from index `n` is `fed` from
position counter + `n`), and the match is what the pattern finds in that
buffer.  The stored value is counter + `m[0]`, the position of the match
start, exactly when `m[0]` is 0. -/
theorem C3_offset_column (lib : Lib) (fuel : Nat) (p : RegexpParser) (ticks : Nat)
    (chunks : List (List Byte)) (hbuf : p.buffer = []) (hout : p.output = [])
    (hk : ∀ f ∈ p.fields, f.Alias ≠ "_offset")
    (hlen : (chunks.flatten.length : Int) ≤ 9223372036854775807) :
    (ConsumeAll lib fuel ⟨p, 0, ticks⟩ chunks).world.parser.output.map some
        = (handOffsAll lib fuel ⟨p, 0, ticks⟩ chunks).map (fun h => recordOf lib h.1 h.2)
    ∧ (ConsumeAll lib fuel ⟨p, 0, ticks⟩ chunks).world.parser.output.map
          (fun r => r.get "_offset")
        = (handOffsAll lib fuel ⟨p, 0, ticks⟩ chunks).map
            (fun h => some ⟨.Integer, .Simple, .int64 h.1.counter⟩)
    ∧ (∀ h ∈ handOffsAll lib fuel ⟨p, 0, ticks⟩ chunks, ∃ j, j ≤ chunks.length
        ∧ 0 ≤ h.1.counter ∧ h.1.counter ≤ ((chunks.take j).flatten.length : Int)
        ∧ h.1.parser.buffer = (chunks.take j).flatten.drop h.1.counter.toNat
        ∧ (∀ n : Nat, h.1.parser.buffer.drop n
            = (chunks.take j).flatten.drop (h.1.counter.toNat + n))
        ∧ p.compiled.FindSubmatchIndex h.1.parser.buffer = some h.2)
    ∧ (∀ (i : Nat) (r : Record) (h : World × List Int) (s : Int),
        (ConsumeAll lib fuel ⟨p, 0, ticks⟩ chunks).world.parser.output[i]? = some r →
        (handOffsAll lib fuel ⟨p, 0, ticks⟩ chunks)[i]? = some h →
        index h.2 0 = .ok s →
        (r.get "_offset" = some ⟨.Integer, .Simple, .int64 (h.1.counter + s)⟩ ↔ s = 0)) := by
  obtain ⟨⟨recs, h1, h2⟩, h3⟩ := ConsumeAll_handOffs lib fuel chunks ⟨p, 0, ticks⟩ []
    ⟨le_refl _, by simp, by simp [hbuf]⟩ (by simpa using hlen)
  simp only [hout, List.nil_append] at h1
  rw [← h1] at h2
  have hoff : (ConsumeAll lib fuel ⟨p, 0, ticks⟩ chunks).world.parser.output.map
          (fun r => r.get "_offset")
        = (handOffsAll lib fuel ⟨p, 0, ticks⟩ chunks).map
            (fun h => some ⟨.Integer, .Simple, .int64 h.1.counter⟩) := by
    refine map_of_map_some _ _ _ _ _ h2 ?_
    intro h hh r hr
    obtain ⟨j, -, -, -, hf, -⟩ := h3 h hh
    exact recordOf_offset (by rw [hf]; exact hk) hr
  refine ⟨h2, hoff, ?_, ?_⟩
  · intro h hh
    obtain ⟨j, j0, ⟨t1, t2, t3⟩, hc, -, hm⟩ := h3 h hh
    simp only [List.nil_append] at t2 t3
    refine ⟨j, j0, t1, t2, t3, ?_, by rw [← hc]; exact hm⟩
    intro n
    rw [t3, List.drop_drop, Nat.add_comm]
  · intro i r h s hr hh hs
    have e1 : ((ConsumeAll lib fuel ⟨p, 0, ticks⟩ chunks).world.parser.output.map
          (fun r => r.get "_offset"))[i]? = some (r.get "_offset") := by
      rw [List.getElem?_map, hr]; rfl
    rw [hoff, List.getElem?_map, hh] at e1
    have e2 : r.get "_offset" = some ⟨.Integer, .Simple, .int64 h.1.counter⟩ := by
      simpa using e1.symm
    rw [e2]
    constructor
    · intro h4
      simp only [Option.some.injEq, Column.mk.injEq, Value.int64.injEq, true_and] at h4
      omega
    · intro h4
      rw [h4, Int.add_zero]

/-- C3 at a concrete input: pattern `b`, chunks `xa` then `bab`.  Two records
are handed off in the second call: the first match is `[2, 3]` in the buffer
`xabab` with the counter at 0, the second is `[1, 2]` in the buffer `ab` with
the counter at 3; the `_offset` columns hold 0 and 3, while the matches start
at bytes 2 and 4 of the stream.  For the single chunk `ab` the one hand-off
has the counter at 0 and the match `[1, 2]`. -/
theorem C3_offset_column_witness :
    (ConsumeAll exampleLib 2 ⟨exampleParser patB [] 10, 0, 0⟩
        ["xa".data, "bab".data]).world.parser.output.map (fun r => r.get "_offset")
      = [some ⟨.Integer, .Simple, .int64 0⟩, some ⟨.Integer, .Simple, .int64 3⟩]
    ∧ (handOffsAll exampleLib 2 ⟨exampleParser patB [] 10, 0, 0⟩
        ["xa".data, "bab".data]).map (fun h => (h.1.counter, h.1.parser.buffer, h.2))
      = [(0, "xabab".data, [2, 3]), (3, "ab".data, [1, 2])]
    ∧ (ConsumeAll exampleLib 2 ⟨exampleParser patB [] 10, 0, 0⟩
        ["xa".data, "bab".data]).world.parser.output.map (fun r => r.get "_offset")
      = (handOffsAll exampleLib 2 ⟨exampleParser patB [] 10, 0, 0⟩
          ["xa".data, "bab".data]).map (fun h => some ⟨.Integer, .Simple, .int64 h.1.counter⟩)
    ∧ (handOffsAll exampleLib 1 ⟨exampleParser patB [] 10, 0, 0⟩
        ["ab".data]).map (fun h => (h.1.counter, h.1.parser.buffer, h.2))
      = [(0, "ab".data, [1, 2])] :=
  ⟨by decide, by decide,
   (C3_offset_column exampleLib 2 (exampleParser patB [] 10) 0 ["xa".data, "bab".data] rfl rfl
     (by simp [exampleParser]) (by decide)).2.1,
   by decide⟩

/-- C4 as stated fails, in two ways.  With the pattern `a+` and no overflow,
`Consume(a)` then `Consume(a)` hands off two records (each call matches its own
`a` at once), a single `Consume(aa)` hands off one.  With the pattern `b` and
line size 1, `Consume(b)` then `Consume(a)` hands off one record, a single
`Consume(ba)` drops the `b` as overflow before matching and hands off none. -/
theorem C4_chunks_matter :
    ((ConsumeAll exampleLib 2 (exampleWorld patAPlus [] 10) ["a".data, "a".data]).isReturned = true
      ∧ (ConsumeAll exampleLib 2 (exampleWorld patAPlus [] 10)
          ["a".data, "a".data]).world.parser.output.length = 2
      ∧ (Consume exampleLib 2 (exampleWorld patAPlus [] 10) ("a".data ++ "a".data)).isReturned = true
      ∧ (Consume exampleLib 2 (exampleWorld patAPlus [] 10)
          ("a".data ++ "a".data)).world.parser.output.length = 1)
    ∧ ((ConsumeAll exampleLib 2 (exampleWorld patB [] 1) ["b".data, "a".data]).isReturned = true
      ∧ (ConsumeAll exampleLib 2 (exampleWorld patB [] 1)
          ["b".data, "a".data]).world.parser.output.length = 1
      ∧ (Consume exampleLib 2 (exampleWorld patB [] 1) ("b".data ++ "a".data)).isReturned = true
      ∧ (Consume exampleLib 2 (exampleWorld patB [] 1)
          ("b".data ++ "a".data)).world.parser.output.length = 0) := by
  decide

/-- C4 (chunk boundaries), amended: when the first match attempt of
`Consume(a)` finds no match (`w1` is the state after appending `a` and applying
the overflow policy), that call returns `w1` having handed off nothing, and
`Consume(b)` from there has the same outcome (records handed off, buffer,
counter, panic or not) as the single call `Consume(a ++ b)` from the start,
for every fuel. -/
theorem C4_chunk_split (lib : Lib) (w w1 : World) (a b : List Byte)
    (h : appendChunk w a = .ok w1)
    (hno : w1.parser.compiled.FindSubmatchIndex w1.parser.buffer = none) (fuel : Nat) :
    Consume lib fuel w a = .returned w1
    ∧ Consume lib fuel w1 b = Consume lib fuel w (a ++ b)
    ∧ ConsumeAll lib fuel w [a, b] = ConsumeAll lib fuel w [a ++ b] := by
  have e1 : Consume lib fuel w a = .returned w1 := by
    unfold Consume
    rw [h]
    simp only
    unfold matchLoop
    rw [hno]
  have e2 : Consume lib fuel w1 b = Consume lib fuel w (a ++ b) := by
    unfold Consume
    rw [appendChunk_split w w1 a b h]
  refine ⟨e1, e2, ?_⟩
  rw [ConsumeAll_single, ← e2, ← ConsumeAll_single]
  conv_lhs => unfold ConsumeAll
  rw [e1]

/-- C4 at a concrete input: pattern `b`, line size 3, chunks `xyza` and `b`.
The first call drops `x` as overflow and finds no match in `yza`; the second
call and the single call on `xyzab` agree, and hand off one record. -/
theorem C4_chunk_split_witness :
    (Consume exampleLib 1 (exampleWorld patB [] 3)
        ("xyza".data ++ "b".data)).world.parser.output.length = 1
    ∧ Consume exampleLib 1 ⟨{ exampleParser patB [] 3 with buffer := "yza".data }, 1, 0⟩ "b".data
        = Consume exampleLib 1 (exampleWorld patB [] 3) ("xyza".data ++ "b".data) :=
  ⟨by decide,
   (C4_chunk_split exampleLib (exampleWorld patB [] 3)
      ⟨{ exampleParser patB [] 3 with buffer := "yza".data }, 1, 0⟩ "xyza".data "b".data
      rfl rfl 1).2.1⟩

/-- C5: the bound check lets `g = len(m)/2` through.  With the pattern `(a)`
a match has four entries, so `len(m)/2 = 2` and the valid groups are 0 and 1.
A field with `Group = 2` passes `g < 0 || g > len(m)/2` and `Consume` dies on
the run-time index panic of `m[4]`, not on the diagnostic; a field with
`Group = 3` gets the diagnostic, and one with `Group = 1` is extracted. -/
theorem C5_group_check_off_by_one (lib : Lib) :
    patGroupA.FindSubmatchIndex "a".data = some [0, 1, 0, 1]
    ∧ (Consume lib 1 (exampleWorld patGroupA [groupField "x" 2] 10) "a".data).fault
        = some Fault.indexOutOfRange
    ∧ (Consume lib 1 (exampleWorld patGroupA [groupField "x" 3] 10) "a".data).fault
        = some Fault.groupOutOfRange
    ∧ (Consume lib 1 (exampleWorld patGroupA [groupField "x" 1] 10) "a".data).fault
        = none :=
  ⟨rfl, rfl, rfl, rfl⟩

/-- C6 as stated fails: `NewRegexpParser` rejects nothing but a pattern that
does not compile.  With the pattern `(?P<x>a)` and one declared field `nosuch`
(declared with group 7), which names no capture, it returns a parser whose
fields are `nosuch`, still with group 7, and the generated field for `x`. -/
theorem C6_unbound_field_accepted :
    patNamedA.SubexpNames = ["", "x"]
    ∧ (NewRegexpParser exampleLib "h" "g" "f" [] "(?P<x>a)"
        [groupField "nosuch" 7] 10).toOption.map
          (fun p => p.fields.map (fun f => (f.Name, f.Alias, f.Group)))
        = some [("", "nosuch", 7), ("", "x", 1)] := by
  decide

/-- C6 (unbound fields), amended: for every pattern that compiles,
`NewRegexpParser` returns a parser, whatever the declared fields; the parser
has at least the declared fields, and a declared field whose name (its alias
when the name is empty) equals no named capture group is retained unchanged at
its position, with the group index it was declared with. -/
theorem C6_unbound_fields_retained (lib : Lib) (hostname group file : String)
    (output : List Record) (pattern : String) (fields : List FieldConfig) (maxLineSize : Int)
    (re : Regexp) (hc : lib.compile pattern = some re) :
    ∃ p, NewRegexpParser lib hostname group file output pattern fields maxLineSize = .ok p
      ∧ fields.length ≤ p.fields.length
      ∧ ∀ (n : Nat) (f : FieldConfig), fields[n]? = some f →
          (∀ name ∈ re.SubexpNames, name ≠ "" → name ≠ f.specName) →
          p.fields[n]? = some f := by
  unfold NewRegexpParser
  rw [hc]
  refine ⟨_, rfl, ?_, ?_⟩
  · simp only [resolveLoop_eq, List.length_append, List.length_map]
    omega
  · intro n f hf h
    exact resolveLoop_getElem?_of_unbound re.SubexpNames fields n f hf h

/-- C6 at a concrete input: the pattern `(?P<x>a)` and the declared field
`nosuch`. -/
theorem C6_unbound_fields_retained_witness :
    exampleLib.compile "(?P<x>a)" = some patNamedA
    ∧ ∃ p, NewRegexpParser exampleLib "h" "g" "f" [] "(?P<x>a)" [groupField "nosuch" 7] 10 = .ok p
      ∧ [groupField "nosuch" 7].length ≤ p.fields.length
      ∧ ∀ (n : Nat) (f : FieldConfig), [groupField "nosuch" 7][n]? = some f →
          (∀ name ∈ patNamedA.SubexpNames, name ≠ "" → name ≠ f.specName) →
          p.fields[n]? = some f :=
  ⟨rfl, C6_unbound_fields_retained exampleLib "h" "g" "f" [] "(?P<x>a)"
    [groupField "nosuch" 7] 10 patNamedA rfl⟩

/-- C7 as stated fails for a pattern with two groups of one name, which
`regexp` accepts: `(?P<bob>a)(?P<bob>b)` has the captures `bob` at positions 1
and 2.  A declared field named `bob` ends with `Group = 2`, not 1; and with no
declared field, the two captures give one generated field, with `Group = 2`. -/
theorem C7_duplicate_names :
    patBobBob.SubexpNames = ["", "bob", "bob"]
    ∧ (NewRegexpParser exampleLib "h" "g" "f" [] "(?P<bob>a)(?P<bob>b)"
        [namedField "bob"] 10).toOption.map
          (fun p => p.fields.map (fun f => (f.Name, f.Alias, f.Group)))
        = some [("bob", "", 2)]
    ∧ (NewRegexpParser exampleLib "h" "g" "f" [] "(?P<bob>a)(?P<bob>b)" [] 10).toOption.map
          (fun p => p.fields.map (fun f => (f.Name, f.Alias, f.Group)))
        = some [("", "bob", 2)] := by
  decide

/-- C7 (field resolution), amended: for every pattern that compiles and whose
named capture groups have pairwise distinct names, and every declared field
list, the parser's field list is the declared fields in their original order,
each one whose name (alias if the name is empty) is the name of a named
capture having `Group` set to that capture's position and the others
unchanged (`boundField`), followed by one generated field per named capture
that no declared field names, in capture order, with alias the capture name,
group the capture position, type String and treatment Simple
(`autoGenerated`). -/
theorem C7_field_resolution (lib : Lib) (hostname group file : String)
    (output : List Record) (pattern : String) (fields : List FieldConfig) (maxLineSize : Int)
    (re : Regexp) (hc : lib.compile pattern = some re)
    (hnd : (re.SubexpNames.filter (fun n => decide (n ≠ ""))).Nodup) :
    ∃ p, NewRegexpParser lib hostname group file output pattern fields maxLineSize = .ok p
      ∧ p.fields = fields.map (boundField re.SubexpNames)
          ++ autoGenerated re.SubexpNames fields := by
  unfold NewRegexpParser
  rw [hc]
  exact ⟨_, rfl, resolveLoop_nodup re.SubexpNames fields hnd⟩

/-- C7 at a concrete input: the pattern `(?P<x>a)` with the declared fields
`x` (by name) and `nosuch`: `x` is bound to group 1, `nosuch` keeps group 7,
and nothing is generated; with `nosuch` alone, `x` is generated. -/
theorem C7_field_resolution_witness :
    (fun f => (f.Name, f.Alias, f.Group)) (boundField patNamedA.SubexpNames (namedField "x"))
        = ("x", "", 1)
    ∧ (autoGenerated patNamedA.SubexpNames [groupField "nosuch" 7]).map
        (fun f => (f.Name, f.Alias, f.Group)) = [("", "x", 1)]
    ∧ ∃ p, NewRegexpParser exampleLib "h" "g" "f" [] "(?P<x>a)"
          [namedField "x", groupField "nosuch" 7] 10 = .ok p
        ∧ p.fields = [namedField "x", groupField "nosuch" 7].map (boundField patNamedA.SubexpNames)
            ++ autoGenerated patNamedA.SubexpNames [namedField "x", groupField "nosuch" 7] :=
  ⟨by decide, by decide,
   C7_field_resolution exampleLib "h" "g" "f" [] "(?P<x>a)"
     [namedField "x", groupField "nosuch" 7] 10 patNamedA rfl (by decide)⟩

/-- C8: the column written for a String field with Hash treatment breaks the
column invariant.  With the pattern `b`, a Hash field `id` with salt `s` and
the chunk `b`, whatever the library, the record handed off has under `id` a
column of type `TokenList` (the source's `Tokens`) holding a string, the
encoded digest of `sb`: its value kind does not match its type, and it is not
String-typed.  (Every other column matches its type: `Consume_kindsOK`.) -/
theorem C8_hash_column_type (lib : Lib) :
    (Consume lib 1 (exampleWorld patB [hashField "id" "s"] 10) "b".data).isReturned = true
    ∧ (Consume lib 1 (exampleWorld patB [hashField "id" "s"] 10)
        "b".data).world.parser.output.map (fun r => r.get "id")
        = [some ⟨.TokenList, .Hash, .string (lib.base64URL (lib.sha1 "sb".data))⟩]
    ∧ Column.kindMatches ⟨.TokenList, .Hash, .string (lib.base64URL (lib.sha1 "sb".data))⟩
        = false :=
  ⟨rfl, rfl, rfl⟩

/-- C9 (hash determinism).  For a String field with Hash treatment whose
capture participates in the match, whatever the record built so far, the state
of the hasher left by earlier fields and the clock, the field step succeeds
and the value stored under the field's alias is the string
`base64url(SHA1(salt ++ s))`, `s` being the captured bytes: a function of the
salt and the captured text alone. -/
theorem C9_hash_determinism (lib : Lib) (buffer : List Byte) (m : List Int) (st : FieldState)
    (spec : FieldConfig) (lo hi : Int) (bs : List Byte)
    (hT : spec.Typ = .String) (hH : spec.Treatment = .Hash)
    (hg : ¬ (spec.Group < 0 ∨ spec.Group > (m.length : Int) / 2))
    (hlo : index m (spec.Group * 2) = .ok lo) (hne : lo ≠ -1)
    (hhi : index m (spec.Group * 2 + 1) = .ok hi) (hs : slice buffer lo hi = .ok bs) :
    ∃ st', fieldStep lib buffer m st spec = .ok st'
      ∧ (st'.out.get spec.Alias).map (fun c => c.Value)
          = some (.string (lib.base64URL (lib.sha1 (spec.Salt.data ++ bs)))) := by
  unfold fieldStep
  simp only [hg, if_false, hlo, hne, hhi, hs, hT, hH]
  refine ⟨_, rfl, ?_⟩
  simp [Record.get_set_eq, hashSum, hashWrite, hashReset]

/-- C9 at a concrete input: the Hash field `id` with salt `s` on the match
`[0, 1]` in the buffer `b`, with unrelated bytes left in the hasher. -/
theorem C9_hash_determinism_witness :
    ∃ st', fieldStep exampleLib "b".data [0, 1] ⟨[], "junk".data, 0⟩ (hashField "id" "s") = .ok st'
      ∧ (st'.out.get "id").map (fun c => c.Value)
          = some (.string (exampleLib.base64URL (exampleLib.sha1 ("s".data ++ "b".data)))) :=
  C9_hash_determinism exampleLib "b".data [0, 1] ⟨[], "junk".data, 0⟩ (hashField "id" "s")
    0 1 "b".data rfl rfl (by decide) rfl (by decide) rfl rfl

/-- C10 (year inference).  For a Timestamp field whose captured text parses to
`t`, the field step stores under the field's alias a Timestamp column holding
`stored`, where, `now` being the clock reading: if `t`'s year is not 0,
`stored` is `t.Unix()`; if it is 0, `stored` is the Unix time of `t`'s month,
day and time of day placed in `now`'s year, unless that instant is strictly
after `now`, in which case they are placed in the year before. -/
theorem C10_year_inference (lib : Lib) (buffer : List Byte) (m : List Int) (st : FieldState)
    (spec : FieldConfig) (lo hi : Int) (bs : List Byte) (t : Time)
    (hT : spec.Typ = .Timestamp)
    (hg : ¬ (spec.Group < 0 ∨ spec.Group > (m.length : Int) / 2))
    (hlo : index m (spec.Group * 2) = .ok lo) (hne : lo ≠ -1)
    (hhi : index m (spec.Group * 2 + 1) = .ok hi) (hs : slice buffer lo hi = .ok bs)
    (hp : lib.parseTime spec.Format (String.mk bs) = some t) :
    ∃ st' stored, fieldStep lib buffer m st spec = .ok st'
      ∧ st'.out.get spec.Alias = some ⟨.Timestamp, spec.Treatment, .int64 stored⟩
      ∧ (t.Year ≠ 0 → stored = t.Unix)
      ∧ (t.Year = 0 →
          ((Date (lib.clock st.ticks).Year t.Month t.Day t.Hour t.Minute t.Second
                t.Nanosecond t.Location).After (lib.clock st.ticks) = false →
            stored = (Date (lib.clock st.ticks).Year t.Month t.Day t.Hour t.Minute t.Second
                t.Nanosecond t.Location).Unix)
          ∧ ((Date (lib.clock st.ticks).Year t.Month t.Day t.Hour t.Minute t.Second
                t.Nanosecond t.Location).After (lib.clock st.ticks) = true →
            stored = (Date ((lib.clock st.ticks).Year - 1) t.Month t.Day t.Hour t.Minute t.Second
                t.Nanosecond t.Location).Unix)) := by
  unfold fieldStep
  simp only [hg, if_false, hlo, hne, hhi, hs, hT, hp]
  by_cases hy : t.Year = 0
  · rw [if_pos hy]
    refine ⟨_, _, rfl, Record.get_set_eq _ _ _, fun h => absurd hy h, fun _ => ⟨?_, ?_⟩⟩
    · intro ha
      simp [inferYear, hy, ha]
    · intro ha
      simp [inferYear, hy, ha]
  · rw [if_neg hy]
    exact ⟨_, _, rfl, Record.get_set_eq _ _ _, fun _ => rfl, fun h => absurd h hy⟩

/-- C10 at the spec's input: now = 2024-01-05T00:00:00Z and the yearless
`Dec 31`.  The stored timestamp is 1703980800, which is 2023-12-31T00:00:00Z. -/
theorem C10_year_inference_witness :
    civil (1703980800 / 86400) = (2023, 12, 31)
    ∧ ∃ st' stored, fieldStep yearLib "Dec 31".data [0, 6] ⟨[], [], 0⟩ (stampField "ts") = .ok st'
        ∧ st'.out.get "ts" = some ⟨.Timestamp, .Simple, .int64 stored⟩
        ∧ stored = 1703980800 := by
  refine ⟨by decide, ?_⟩
  obtain ⟨st', stored, h1, h2, -, h4⟩ :=
    C10_year_inference yearLib "Dec 31".data [0, 6] ⟨[], [], 0⟩ (stampField "ts") 0 6
      "Dec 31".data (Date 0 12 31 0 0 0 0 0) rfl (by decide) rfl (by decide) rfl rfl rfl
  exact ⟨st', stored, h1, h2, (h4 (by decide)).2 (by decide)⟩

/-- C11 (non-fatal omission).  For a match `m` and a field whose group is in
range (`0 ≤ g < len(m)/2`), both `m[2g]` and `m[2g+1]` exist, and: if the
capture did not participate (`m[2g] = -1`), or the field is Integer, Double or
Timestamp and the captured text fails to parse, the field step succeeds and
leaves the record (and the rest of the loop state) as it was; an Integer field
whose text parses as `n` gets the Integer column `n` under its alias, so that,
the alias being absent before, the column is present with value `n` exactly
when the text parses as `n`.  A step that changes nothing lets the loop go on
with the remaining fields as if the field were not there, and a field loop
that completes is followed by the hand-off of exactly one record. -/
theorem C11_nonfatal_omission (lib : Lib) (buffer : List Byte) (m : List Int) (st : FieldState)
    (spec : FieldConfig) (hg : 0 ≤ spec.Group ∧ spec.Group < (m.length : Int) / 2) :
    (∃ lo hi, index m (spec.Group * 2) = .ok lo ∧ index m (spec.Group * 2 + 1) = .ok hi
      ∧ (lo = -1 → fieldStep lib buffer m st spec = .ok st)
      ∧ (∀ bs, lo ≠ -1 → slice buffer lo hi = .ok bs →
          (spec.Typ = .Integer → lib.parseInt (String.mk bs) = none →
            fieldStep lib buffer m st spec = .ok st)
          ∧ (spec.Typ = .Double → lib.parseFloat (String.mk bs) = none →
            fieldStep lib buffer m st spec = .ok st)
          ∧ (spec.Typ = .Timestamp → lib.parseTime spec.Format (String.mk bs) = none →
            fieldStep lib buffer m st spec = .ok st)
          ∧ (spec.Typ = .Integer → ∀ n, lib.parseInt (String.mk bs) = some n →
            fieldStep lib buffer m st spec
              = .ok { st with out := st.out.set spec.Alias ⟨.Integer, spec.Treatment, .int64 n⟩ })
          ∧ (spec.Typ = .Integer → st.out.get spec.Alias = none → ∀ n,
              ((∃ st', fieldStep lib buffer m st spec = .ok st'
                  ∧ st'.out.get spec.Alias = some ⟨.Integer, spec.Treatment, .int64 n⟩)
                ↔ lib.parseInt (String.mk bs) = some n))))
    ∧ (fieldStep lib buffer m st spec = .ok st →
        ∀ rest, fieldLoop lib buffer m st (spec :: rest) = fieldLoop lib buffer m st rest)
    ∧ (∀ (w : World) (st' : FieldState) (e : Int) (b : List Byte),
        fieldLoop lib w.parser.buffer m ⟨synthetic lib w, [], w.ticks + 1⟩ w.parser.fields
          = .ok st' →
        index m 1 = .ok e → sliceFrom w.parser.buffer e = .ok b →
        ∃ w', matchStep lib w m = .ok w' ∧ w'.parser.output = w.parser.output ++ [st'.out]) := by
  have hcheck : ¬ (spec.Group < 0 ∨ spec.Group > (m.length : Int) / 2) := by omega
  obtain ⟨lo, hlo⟩ := @index_of_lt m (spec.Group * 2) (by omega) (by omega)
  obtain ⟨hi, hhi⟩ := @index_of_lt m (spec.Group * 2 + 1) (by omega) (by omega)
  refine ⟨⟨lo, hi, hlo, hhi, ?_, ?_⟩, ?_, ?_⟩
  · intro h
    unfold fieldStep
    simp only [hcheck, if_false, hlo, h, if_true]
  · intro bs hne hs
    have hI : ∀ n, spec.Typ = .Integer → lib.parseInt (String.mk bs) = some n →
        fieldStep lib buffer m st spec
          = .ok { st with out := st.out.set spec.Alias ⟨.Integer, spec.Treatment, .int64 n⟩ } := by
      intro n hT hp
      unfold fieldStep
      simp only [hcheck, if_false, hlo, hne, hhi, hs, hT, hp]
    have hN : spec.Typ = .Integer → lib.parseInt (String.mk bs) = none →
        fieldStep lib buffer m st spec = .ok st := by
      intro hT hp
      unfold fieldStep
      simp only [hcheck, if_false, hlo, hne, hhi, hs, hT, hp]
    refine ⟨hN, ?_, ?_, fun hT n hp => hI n hT hp, ?_⟩
    · intro hT hp
      unfold fieldStep
      simp only [hcheck, if_false, hlo, hne, hhi, hs, hT, hp]
    · intro hT hp
      unfold fieldStep
      simp only [hcheck, if_false, hlo, hne, hhi, hs, hT, hp]
    · intro hT habs n
      constructor
      · rintro ⟨st', h1, h2⟩
        cases hp : lib.parseInt (String.mk bs) with
        | none =>
          rw [hN hT hp] at h1
          simp only [Except.ok.injEq] at h1
          rw [← h1, habs] at h2
          simp at h2
        | some n' =>
          rw [hI n' hT hp] at h1
          simp only [Except.ok.injEq] at h1
          rw [← h1] at h2
          simp only [Record.get_set_eq, Option.some.injEq, Column.mk.injEq, Value.int64.injEq,
            true_and] at h2
          rw [h2]
      · intro hp
        exact ⟨_, hI n hT hp, Record.get_set_eq _ _ _⟩
  · intro h rest
    conv_lhs => unfold fieldLoop
    rw [h]
  · intro w st' e b hfl he hb
    unfold matchStep
    rw [hfl]
    simp only [he, hb]
    exact ⟨_, rfl, rfl⟩

/-- C11 at a concrete input, with a decimal `ParseInt`: on the match
`[0, 2, 0, 2]` in the buffer `4x` the Integer field `n` bound to group 1 is
omitted (`4x` is no integer), and in the buffer `42` it is present with 42. -/
theorem C11_nonfatal_omission_witness :
    (fieldStep decimalLib "4x".data [0, 2, 0, 2] ⟨[], [], 0⟩
        (intField "n" 1 FieldTreatment.Simple)).toOption.map (fun st => st.out) = some []
    ∧ (fieldStep decimalLib "42".data [0, 2, 0, 2] ⟨[], [], 0⟩
        (intField "n" 1 FieldTreatment.Simple)).toOption.map (fun st => st.out)
        = some [("n", ⟨.Integer, .Simple, .int64 42⟩)]
    ∧ ∀ rest, fieldStep decimalLib "4x".data [0, 2, 0, 2] ⟨[], [], 0⟩
          (intField "n" 1 FieldTreatment.Simple) = .ok ⟨[], [], 0⟩ →
        fieldLoop decimalLib "4x".data [0, 2, 0, 2] ⟨[], [], 0⟩
            (intField "n" 1 FieldTreatment.Simple :: rest)
          = fieldLoop decimalLib "4x".data [0, 2, 0, 2] ⟨[], [], 0⟩ rest :=
  ⟨by decide, by decide,
   fun rest h => (C11_nonfatal_omission decimalLib "4x".data [0, 2, 0, 2] ⟨[], [], 0⟩
      (intField "n" 1 FieldTreatment.Simple) (by decide)).2.1 h rest⟩

/-- C17 (match loop postcondition and order).  When `Consume` returns, with
`w1` the state presented to the first match attempt and the trace being the
iterations completed, in order: the trace is a chain of successive matches,
each the match `FindSubmatchIndex` finds in the buffer that remains after the
end of the previous one, down to the final buffer (so the final buffer is the
suffix after the last match's end); the records handed off by the call are, in
order, the records built for the matches of the trace; and the pattern has no
match in the final buffer. -/
theorem C17_match_loop_order (lib : Lib) (fuel : Nat) (w w' : World) (bytes : List Byte)
    (hret : Consume lib fuel w bytes = .returned w') :
    ∃ w1, appendChunk w bytes = .ok w1
      ∧ Successive w.parser.compiled w1.parser.buffer (consumeTrace lib fuel w bytes)
          w'.parser.buffer
      ∧ (∃ recs, w'.parser.output = w.parser.output ++ recs
          ∧ recs.map some = (consumeTrace lib fuel w bytes).map (fun p => recordOf lib p.1 p.2))
      ∧ w.parser.compiled.FindSubmatchIndex w'.parser.buffer = none := by
  unfold Consume at hret
  unfold consumeTrace
  split at hret
  · simp at hret
  · rename_i w1 hok
    rw [hok]
    simp only
    obtain ⟨hp, -, -⟩ := appendChunk_ok hok
    have hc : w1.parser.compiled = w.parser.compiled := by rw [hp]
    have ho : w1.parser.output = w.parser.output := by rw [hp]
    obtain ⟨i1, i2, i3, i4⟩ := matchLoop_successive lib fuel w1 w' hret
    rw [hc] at i1
    rw [ho] at i2
    rw [i3, hc] at i4
    exact ⟨w1, rfl, i1, i2, i4⟩

/-- C17 at a concrete input: pattern `b`, chunk `abxbc`.  Two matches, `[1, 2]`
in `abxbc` and `[1, 2]` in `xbc`; two records, with `_offset` 0 and 2; the
final buffer is `c`. -/
theorem C17_match_loop_order_witness :
    (consumeTrace exampleLib 5 (exampleWorld patB [] 10) "abxbc".data).map
        (fun p => (p.1.parser.buffer, p.2))
      = [("abxbc".data, [1, 2]), ("xbc".data, [1, 2])]
    ∧ (Consume exampleLib 5 (exampleWorld patB [] 10) "abxbc".data).world.parser.output.map
        (fun r => r.get "_offset")
      = [some ⟨.Integer, .Simple, .int64 0⟩, some ⟨.Integer, .Simple, .int64 2⟩]
    ∧ (Consume exampleLib 5 (exampleWorld patB [] 10) "abxbc".data).world.parser.buffer
      = "c".data
    ∧ ∃ w1, appendChunk (exampleWorld patB [] 10) "abxbc".data = .ok w1
      ∧ Successive (exampleWorld patB [] 10).parser.compiled w1.parser.buffer
          (consumeTrace exampleLib 5 (exampleWorld patB [] 10) "abxbc".data)
          (Consume exampleLib 5 (exampleWorld patB [] 10) "abxbc".data).world.parser.buffer
      ∧ (∃ recs, (Consume exampleLib 5 (exampleWorld patB [] 10)
              "abxbc".data).world.parser.output
            = (exampleWorld patB [] 10).parser.output ++ recs
          ∧ recs.map some = (consumeTrace exampleLib 5 (exampleWorld patB [] 10)
              "abxbc".data).map (fun p => recordOf exampleLib p.1 p.2))
      ∧ (exampleWorld patB [] 10).parser.compiled.FindSubmatchIndex
          (Consume exampleLib 5 (exampleWorld patB [] 10) "abxbc".data).world.parser.buffer
        = none :=
  ⟨by decide, by decide, by decide,
   C17_match_loop_order exampleLib 5 (exampleWorld patB [] 10)
     (Consume exampleLib 5 (exampleWorld patB [] 10) "abxbc".data).world "abxbc".data rfl⟩

/-- C18 as stated fails at the edge of the counter's type: with the counter at
the largest `int64`, line size 0 and a one-byte chunk, the overflow step leaves
the counter at the smallest `int64`, not one higher than it was. -/
theorem C18_overflow_counter_wraps :
    (appendChunk { exampleWorld patB [] 0 with counter := 9223372036854775807 }
        "a".data).toOption.map (fun w => w.counter) = some (-9223372036854775808)
    ∧ (appendChunk { exampleWorld patB [] 0 with counter := 9223372036854775807 }
        "a".data).toOption.map (fun w => w.counter) ≠ some (9223372036854775807 + 1) := by
  decide

/-- C18 (overflow policy), amended: for `maxLineSize ≥ 0` and a counter that
stays in the `int64` range, with `l = len(buffer) + len(chunk)`: the first part
of `Consume` does not panic, the match loop starts from its result `w1`, the
buffer of `w1` is the last `min(l, maxLineSize)` bytes of `buffer ++ chunk`;
when `l > maxLineSize` the counter of `w1` is the old one plus
`l - maxLineSize`, and when `l ≤ maxLineSize` the buffer is `buffer ++ chunk`
whole and the counter is the old one. -/
theorem C18_overflow_policy (lib : Lib) (fuel : Nat) (w : World) (bytes : List Byte)
    (hmax : 0 ≤ w.parser.maxLineSize)
    (hlo : -9223372036854775808 ≤ w.counter)
    (hhi : w.counter + w.parser.buffer.length + bytes.length ≤ 9223372036854775807) :
    ∃ w1, appendChunk w bytes = .ok w1
      ∧ Consume lib fuel w bytes = matchLoop lib fuel w1
      ∧ w1.parser.buffer = (w.parser.buffer ++ bytes).drop
          ((w.parser.buffer ++ bytes).length
            - min (w.parser.buffer ++ bytes).length w.parser.maxLineSize.toNat)
      ∧ w1.parser.buffer.length = min (w.parser.buffer ++ bytes).length w.parser.maxLineSize.toNat
      ∧ (((w.parser.buffer ++ bytes).length : Int) > w.parser.maxLineSize →
          w1.counter = w.counter + (((w.parser.buffer ++ bytes).length : Int) - w.parser.maxLineSize))
      ∧ (((w.parser.buffer ++ bytes).length : Int) ≤ w.parser.maxLineSize →
          w1.parser.buffer = w.parser.buffer ++ bytes ∧ w1.counter = w.counter) := by
  have heq := appendChunk_eq w bytes hmax
  refine ⟨_, heq, ?_, ?_, ?_, ?_, ?_⟩
  · unfold Consume; rw [heq]
  · simp only [List.length_append]
    congr 1
    omega
  · simp only [List.length_drop, List.length_append]
    omega
  · intro hl
    simp only [List.length_append, Nat.cast_add] at hl ⊢
    rw [if_pos hl]
    unfold AddInt64
    apply wrapInt64_id <;> omega
  · intro hl
    simp only [List.length_append, Nat.cast_add] at hl ⊢
    constructor
    · have : ((w.parser.buffer.length : Int) + bytes.length - w.parser.maxLineSize).toNat = 0 := by
        omega
      rw [this, List.drop_zero]
    · rw [if_neg (by omega)]

/-- C18 at a concrete input: line size 2 and the chunk `xxbab` on the empty
buffer; the match loop starts on `ab` with the counter at 3. -/
theorem C18_overflow_policy_witness :
    ∃ w1, appendChunk (exampleWorld patB [] 2) "xxbab".data = .ok w1
      ∧ w1.parser.buffer = "ab".data ∧ w1.counter = 3 := by
  obtain ⟨w1, h1, -, h3, -, h5, -⟩ :=
    C18_overflow_policy exampleLib 0 (exampleWorld patB [] 2) "xxbab".data
      (by decide) (by decide) (by decide)
  exact ⟨w1, h1, h3, h5 (by decide)⟩

/-- C19 (termination of the match loop), for a counter in the `int64` range.
The loop stops (for some fuel it is not still running) if and only if no
completed iteration found a match ending at 0; assuming no fatal error occurs,
"stops" is "returns".  When no match ends at 0 the loop stops within
`len(buffer) + 1` match attempts and has handed off at most `len(buffer)`
records however long it is run.  When the match found in the entry state ends
at 0 and its iteration completes, that iteration leaves buffer and counter
unchanged, and for every fuel the loop is still running, with the same buffer,
counter and match, having handed off one record per iteration. -/
theorem C19_termination (lib : Lib) (w : World)
    (hlo : -9223372036854775808 ≤ w.counter) (hhi : w.counter ≤ 9223372036854775807) :
    ((∃ fuel, (matchLoop lib fuel w).isRunning = false)
        ↔ ∀ fuel, (0 : Int) ∉ matchEnds lib fuel w)
    ∧ ((∀ fuel, (matchLoop lib fuel w).fault = none) →
        ((∃ fuel, (matchLoop lib fuel w).isReturned = true)
          ↔ ∀ fuel, (0 : Int) ∉ matchEnds lib fuel w))
    ∧ ((∀ fuel, (0 : Int) ∉ matchEnds lib fuel w) →
        (matchLoop lib (w.parser.buffer.length + 1) w).isRunning = false
        ∧ ∀ fuel w',
            (matchLoop lib fuel w = .returned w' ∨ matchLoop lib fuel w = .running w') →
            w'.parser.output.length ≤ w.parser.output.length + w.parser.buffer.length)
    ∧ (∀ m w1, w.parser.compiled.FindSubmatchIndex w.parser.buffer = some m →
        index m 1 = .ok 0 → matchStep lib w m = .ok w1 →
        w1.parser.buffer = w.parser.buffer ∧ w1.counter = w.counter
        ∧ ∀ fuel, ∃ wf, matchLoop lib fuel w = .running wf
            ∧ wf.parser.buffer = w.parser.buffer ∧ wf.counter = w.counter
            ∧ wf.parser.compiled.FindSubmatchIndex wf.parser.buffer = some m
            ∧ wf.parser.output.length = w.parser.output.length + fuel) := by
  have hc : wrapInt64 w.counter = w.counter := wrapInt64_id hlo hhi
  have hiff : (∃ fuel, (matchLoop lib fuel w).isRunning = false)
      ↔ ∀ fuel, (0 : Int) ∉ matchEnds lib fuel w := by
    constructor
    · rintro ⟨n, hn⟩ k hk
      rw [matchEnds_zero_running lib k w hk hc n] at hn
      simp at hn
    · intro hz
      exact ⟨_, (matchLoop_progress lib (w.parser.buffer.length + 1) w hz).1 (Nat.lt_succ_self _)⟩
  refine ⟨hiff, ?_, ?_, ?_⟩
  · intro hnf
    rw [← hiff]
    constructor
    · rintro ⟨n, hn⟩
      refine ⟨n, ?_⟩
      cases hout : matchLoop lib n w <;> rw [hout] at hn <;> simp_all [Outcome.isRunning,
        Outcome.isReturned]
    · rintro ⟨n, hn⟩
      refine ⟨n, ?_⟩
      have hf := hnf n
      cases hout : matchLoop lib n w <;> rw [hout] at hn hf <;> simp_all [Outcome.isRunning,
        Outcome.isReturned, Outcome.fault]
  · intro hz
    refine ⟨(matchLoop_progress lib _ w hz).1 (Nat.lt_succ_self _), ?_⟩
    intro fuel w' h
    have := (matchLoop_progress lib fuel w hz).2 w' h
    omega
  · intro m w1 hm he hok
    obtain ⟨st, e, b, hst, he', hb, hw⟩ := matchStep_ok hok
    obtain ⟨x1, h1, h2, h3, -⟩ := matchStep_zero_end hst he
    rw [hok] at h1
    simp only [Except.ok.injEq] at h1
    subst h1
    refine ⟨h2, ?_, ?_⟩
    · rw [h3]; unfold AddInt64; rw [Int.add_zero]; exact hc
    · intro fuel
      obtain ⟨xf, f1, f2, f3, f4, f5⟩ := matchLoop_stuck lib m he fuel w hm ⟨st, hst⟩ hc
      exact ⟨xf, f1, f2, f3, by rw [f4, f2]; exact hm, f5⟩

/-- C19 at concrete inputs.  Pattern `b` on the buffer `abb`: two records and
the loop has returned.  The empty pattern on the empty buffer: the match
`[0, 0]` ends at 0, and with fuel 5 the loop is still running after five
records, buffer and counter unchanged. -/
theorem C19_termination_witness :
    (matchLoop exampleLib 4
        ⟨{ exampleParser patB [] 10 with buffer := "abb".data }, 0, 0⟩).isReturned = true
    ∧ (matchLoop exampleLib 4
        ⟨{ exampleParser patB [] 10 with buffer := "abb".data }, 0, 0⟩).world.parser.output.length
        = 2
    ∧ ∃ wf, matchLoop exampleLib 5 (exampleWorld patEmpty [] 10) = .running wf
        ∧ wf.parser.buffer = [] ∧ wf.counter = 0
        ∧ wf.parser.compiled.FindSubmatchIndex wf.parser.buffer = some [0, 0]
        ∧ wf.parser.output.length = 0 + 5 :=
  ⟨by decide, by decide,
   ((C19_termination exampleLib (exampleWorld patEmpty [] 10) (by decide) (by decide)).2.2.2
      [0, 0] (matchLoop exampleLib 1 (exampleWorld patEmpty [] 10)).world rfl rfl rfl).2.2 5⟩

set_option maxRecDepth 100000

/-- C12 (encoder selection).  For every URL, `NewEncoder` returns, with a nil
error, the encoder selected by the part `suffix` of the scheme after its last
`+` (the whole scheme when it has no `+`): `json` gives the JSON encoder,
`statsd` the statsd encoder, anything else the raw string encoder.  So
`tcp+json` is JSON, while `tcp`, `tcp+`, the empty scheme and `json+tcp` are
raw string. -/
theorem C12_encoder_selection (u : URL) :
    (∃ suffix : List Char, '+' ∉ suffix
      ∧ (u.Scheme.data = suffix ∨ ∃ pre, u.Scheme.data = pre ++ '+' :: suffix)
      ∧ NewEncoder u = .ok (encoderFor (String.mk suffix), none))
    ∧ (NewEncoder ⟨"tcp+json"⟩).toOption = some (.JsonEncoder, none)
    ∧ (NewEncoder ⟨"udp+statsd"⟩).toOption = some (.StatsdEncoder, none)
    ∧ (NewEncoder ⟨"json"⟩).toOption = some (.JsonEncoder, none)
    ∧ (NewEncoder ⟨"tcp"⟩).toOption = some (.RawStringEncoder, none)
    ∧ (NewEncoder ⟨"tcp+"⟩).toOption = some (.RawStringEncoder, none)
    ∧ (NewEncoder ⟨""⟩).toOption = some (.RawStringEncoder, none)
    ∧ (NewEncoder ⟨"json+tcp"⟩).toOption = some (.RawStringEncoder, none) := by
  refine ⟨?_, by decide, by decide, by decide, by decide, by decide, by decide, by decide⟩
  obtain ⟨t, h1, h2, h3⟩ := Split_last '+' u.Scheme.data
  refine ⟨t, h2, ?_, ?_⟩
  · rcases h3 with ⟨h3, -⟩ | ⟨h3, -⟩
    · exact Or.inl h3
    · exact Or.inr h3
  · unfold NewEncoder
    simp only
    rw [← List.getLast?_eq_getElem?, h1]
    simp only [encoderFor]
    split
    · rfl
    · split <;> rfl

/-- C13 (statsd dispatch).  For a record whose Gauge and Counter columns hold
`int64` values and whose Metric columns hold `float64` values, in whatever
order the columns are visited, `StatsdEncoder.Encode` does not panic, and its
writes are, in that order, one text per column with treatment Gauge, Counter
or Metric and none for the others: `k:v|g` for a Gauge column `k` with value
`v` in decimal, `k:v|c` for a Counter column; no write ends in a newline. -/
theorem C13_statsd_dispatch (fmt : Fmt) (r : Record)
    (hG : ∀ kc ∈ r, kc.2.Treatment = .Gauge ∨ kc.2.Treatment = .Counter →
      ∃ n, kc.2.Value = .int64 n)
    (hM : ∀ kc ∈ r, kc.2.Treatment = .Metric → ∃ x, kc.2.Value = .float64 x) :
    (StatsdEncoder.Encode fmt r).fault = none
    ∧ (StatsdEncoder.Encode fmt r).writes = r.filterMap statsdLine
    ∧ (StatsdEncoder.Encode fmt r).writes.length = (r.filter (fun kc => kc.2.isStat)).length
    ∧ (∀ (k : String) (t : FieldType) (n : Int),
        statsdLine (k, ⟨t, .Gauge, .int64 n⟩) = some (k ++ ":" ++ formatD n ++ "|g")
        ∧ statsdLine (k, ⟨t, .Counter, .int64 n⟩) = some (k ++ ":" ++ formatD n ++ "|c")
        ∧ statsdLine (k, ⟨t, .Simple, .int64 n⟩) = none
        ∧ statsdLine (k, ⟨t, .Tokens, .int64 n⟩) = none
        ∧ statsdLine (k, ⟨t, .Hash, .int64 n⟩) = none)
    ∧ (∀ text ∈ (StatsdEncoder.Encode fmt r).writes, text.data.getLast? ≠ some '\n') := by
  obtain ⟨h1, h2⟩ := StatsdEncoder_writes fmt r hG hM
  refine ⟨((StatsdEncoder_fault fmt r).1).mpr hM, h1, h2,
    fun k t n => ⟨rfl, rfl, rfl, rfl, rfl⟩, ?_⟩
  intro text htext
  rw [h1, List.mem_filterMap] at htext
  obtain ⟨kc, -, hkc⟩ := htext
  unfold statsdLine at hkc
  split at hkc
  all_goals first
    | (simp at hkc; done)
    | (simp only [Option.some.injEq] at hkc
       rw [← hkc]
       simp only [String.data_append]
       first
         | (show (_ ++ '|' :: ['g']).getLast? ≠ some '\n'
            rw [getLast?_append_cons]; decide)
         | (show (_ ++ '|' :: ['c']).getLast? ≠ some '\n'
            rw [getLast?_append_cons]; decide)
         | (show (_ ++ '|' :: ['m', 's']).getLast? ≠ some '\n'
            rw [getLast?_append_cons]; decide))

/-- C13 at a concrete input: the record built by `Consume` for the pattern
`(7)` with an Integer field `n` of treatment Gauge; the one write is `n:7|g`,
the synthetic columns give none. -/
theorem C13_statsd_dispatch_witness :
    (Consume decimalLib 1 (exampleWorld patGroupSeven [intField "n" 1 .Gauge] 10)
        "7".data).world.parser.output.map (fun r => (StatsdEncoder.Encode exampleFmt r).writes)
      = [["n:7|g"]]
    ∧ (StatsdEncoder.Encode exampleFmt
        [("a", ⟨.Integer, .Counter, .int64 (-3)⟩), ("b", ⟨.String, .Simple, .string "x"⟩)]).writes
      = [("a", (⟨.Integer, .Counter, .int64 (-3)⟩ : Column)),
         ("b", ⟨.String, .Simple, .string "x"⟩)].filterMap statsdLine
    ∧ [("a", (⟨.Integer, .Counter, .int64 (-3)⟩ : Column)),
         ("b", ⟨.String, .Simple, .string "x"⟩)].filterMap statsdLine = ["a:-3|c"] :=
  ⟨by decide,
   (C13_statsd_dispatch exampleFmt
      [("a", ⟨.Integer, .Counter, .int64 (-3)⟩), ("b", ⟨.String, .Simple, .string "x"⟩)]
      (by
        intro kc hkc h
        simp only [List.mem_cons, List.mem_singleton, List.not_mem_nil, or_false] at hkc
        rcases hkc with rfl | rfl
        · exact ⟨_, rfl⟩
        · simp at h)
      (by
        intro kc hkc h
        simp only [List.mem_cons, List.mem_singleton, List.not_mem_nil, or_false] at hkc
        rcases hkc with rfl | rfl <;> simp at h)).2.1,
   by decide⟩

/-- C14 as stated fails for a value whose product with 1000 is not finite: for
the Metric column `latency` holding NaN the write is `latency-us:NaN|ms`,
which has no decimal places at all. -/
theorem C14_nan_has_no_decimals :
    Float64.nan.isNaN = true
    ∧ (StatsdEncoder.Encode exampleFmt
        [("latency", ⟨.Double, .Metric, .float64 Float64.nan⟩)]).writes = ["latency-us:NaN|ms"]
    ∧ '.' ∉ "latency-us:NaN|ms".data := by
  decide

/-- C14 (statsd scaling), amended: for a Metric column under alias `k` with
`float64` value `v`, visited first, the write is `k-us:` followed by the `%f`
text of `v*1000` followed by `|ms`; when `v*1000` is finite that text has
exactly six digits after its one decimal point, and otherwise it is `NaN`,
`+Inf` or `-Inf`. -/
theorem C14_statsd_scaling (fmt : Fmt) (k : String) (t : FieldType) (v : Float64)
    (rest : Record) :
    (StatsdEncoder.Encode fmt ((k, ⟨t, .Metric, .float64 v⟩) :: rest)).writes
      = (k ++ "-us:" ++ sprintfF (v.mul Float64.thousand) ++ "|ms")
          :: (StatsdEncoder.Encode fmt rest).writes
    ∧ ((v.mul Float64.thousand).isFinite = true →
        ∃ ip fd : List Char, sprintfF (v.mul Float64.thousand) = String.mk (ip ++ '.' :: fd)
          ∧ fd.length = 6 ∧ (∀ c ∈ fd, c.isDigit = true) ∧ '.' ∉ ip)
    ∧ ((v.mul Float64.thousand).isFinite = false →
        sprintfF (v.mul Float64.thousand) = "NaN" ∨ sprintfF (v.mul Float64.thousand) = "+Inf"
          ∨ sprintfF (v.mul Float64.thousand) = "-Inf") := by
  refine ⟨rfl, sprintfF_finite _, ?_⟩
  intro h
  have he : (v.mul Float64.thousand).expField = 2047 := by
    simpa [Float64.isFinite] using h
  unfold sprintfF
  by_cases hf : (v.mul Float64.thousand).frac = 0
  · have h1 : (v.mul Float64.thousand).isNaN = false := by simp [Float64.isNaN, hf]
    have h2 : (v.mul Float64.thousand).isInf = true := by simp [Float64.isInf, he, hf]
    simp only [h1, h2, Bool.false_eq_true, if_false, if_true]
    by_cases hs : (v.mul Float64.thousand).sign = true
    · right; right; simp [hs]
    · right; left; simp [hs]
  · have h1 : (v.mul Float64.thousand).isNaN = true := by simp [Float64.isNaN, he, hf]
    left
    simp [h1]

/-- C14 at the spec's input: the value 0.002 (bit pattern 3F60624DD2F1A9FC)
under the alias `latency`; the product is 2 and the write is
`latency-us:2.000000|ms`. -/
theorem C14_statsd_scaling_witness :
    Float64.mul ⟨0x3F60624DD2F1A9FC⟩ Float64.thousand = ⟨0x4000000000000000⟩
    ∧ "latency" ++ "-us:" ++ sprintfF (Float64.mul ⟨0x3F60624DD2F1A9FC⟩ Float64.thousand) ++ "|ms"
        = "latency-us:2.000000|ms"
    ∧ (StatsdEncoder.Encode exampleFmt
        (("latency", ⟨.Double, .Metric, .float64 ⟨0x3F60624DD2F1A9FC⟩⟩) :: [])).writes
      = ("latency" ++ "-us:" ++ sprintfF (Float64.mul ⟨0x3F60624DD2F1A9FC⟩ Float64.thousand)
          ++ "|ms") :: (StatsdEncoder.Encode exampleFmt []).writes :=
  ⟨by decide, by decide,
   (C14_statsd_scaling exampleFmt "latency" .Double ⟨0x3F60624DD2F1A9FC⟩ []).1⟩

/-- C15 (raw string encoding).  For a record whose String-typed columns hold
string values, `RawStringEncoder.Encode` does not panic; its writes are, in the
order the columns are visited, the value followed by a newline for each column
of type String and nothing for the others (no alias is written); as a multiset
they are the lines of the String-typed columns, one write per such column, and
the multiset does not depend on the order of the visit. -/
theorem C15_rawstring (r : Record)
    (h : ∀ kc ∈ r, kc.2.Typ = .String → ∃ s, kc.2.Value = .string s) :
    (RawStringEncoder.Encode r).fault = none
    ∧ (RawStringEncoder.Encode r).writes = r.filterMap rawLine
    ∧ ((RawStringEncoder.Encode r).writes : Multiset String)
        = ((r.filter (fun kc => decide (kc.2.Typ = .String))).filterMap rawLine : Multiset String)
    ∧ (RawStringEncoder.Encode r).writes.length
        = (r.filter (fun kc => decide (kc.2.Typ = .String))).length
    ∧ (∀ r' : Record, r'.Perm r →
        ((RawStringEncoder.Encode r').writes : Multiset String)
          = ((RawStringEncoder.Encode r).writes : Multiset String)) := by
  obtain ⟨h1, h2⟩ := RawStringEncoder_writes r h
  have hfm : ∀ l : Record, (∀ kc ∈ l, kc.2.Typ = .String → ∃ s, kc.2.Value = .string s) →
      l.filterMap rawLine = (l.filter (fun kc => decide (kc.2.Typ = .String))).filterMap rawLine
      ∧ (l.filterMap rawLine).length
          = (l.filter (fun kc => decide (kc.2.Typ = .String))).length := by
    intro l
    induction l with
    | nil => intro _; exact ⟨rfl, rfl⟩
    | cons kc rest ih =>
      intro hl
      obtain ⟨j1, j2⟩ := ih (fun x hx => hl x (List.mem_cons_of_mem _ hx))
      by_cases hT : kc.2.Typ = .String
      · obtain ⟨s, hs⟩ := hl kc (List.mem_cons_self _ _) hT
        have hr : rawLine kc = some (s ++ "\n") := by simp [rawLine, hT, hs]
        rw [List.filter_cons_of_pos (by simpa using hT), List.filterMap_cons, hr]
        simp only [List.filterMap_cons, hr, List.length_cons]
        exact ⟨by rw [j1], by rw [j2]⟩
      · have hr : rawLine kc = none := by
          unfold rawLine
          split
          · rename_i h1 _
            exact absurd h1 hT
          · rfl
        rw [List.filter_cons_of_neg (by simpa using hT), List.filterMap_cons, hr]
        exact ⟨j1, j2⟩
  obtain ⟨h3, h4⟩ := hfm r h
  refine ⟨h1, h2, by rw [h2, ← h3], by rw [h2, h4], ?_⟩
  intro r' hp
  have h' : ∀ kc ∈ r', kc.2.Typ = .String → ∃ s, kc.2.Value = .string s :=
    fun kc hkc => h kc (hp.mem_iff.mp hkc)
  rw [(RawStringEncoder_writes r' h').2, h2]
  exact Quotient.sound (hp.filterMap rawLine)

/-- C15 at a concrete input: the record `Consume` builds for the pattern `b`
with no field: the three writes are the synthetic `_file`, `_group` and
`_hostname` values. -/
theorem C15_rawstring_witness :
    (Consume exampleLib 1 (exampleWorld patB [] 10) "b".data).world.parser.output.map
        (fun r => (RawStringEncoder.Encode r).writes) = [["f\n", "g\n", "h\n"]]
    ∧ (RawStringEncoder.Encode (synthetic exampleLib (exampleWorld patB [] 10))).writes
        = (synthetic exampleLib (exampleWorld patB [] 10)).filterMap rawLine :=
  ⟨by decide,
   (C15_rawstring (synthetic exampleLib (exampleWorld patB [] 10))
      (by
        intro kc hkc hT
        have hs : synthetic exampleLib (exampleWorld patB [] 10)
            = [("_offset", ⟨.Integer, .Simple, .int64 0⟩),
               ("_file", ⟨.String, .Simple, .string "f"⟩),
               ("_time", ⟨.Timestamp, .Simple, .int64 0⟩),
               ("_group", ⟨.String, .Simple, .string "g"⟩),
               ("_hostname", ⟨.String, .Simple, .string "h"⟩)] := by decide
        rw [hs] at hkc
        simp only [List.mem_cons, List.mem_singleton, List.not_mem_nil, or_false] at hkc
        rcases hkc with rfl | rfl | rfl | rfl | rfl
        · simp at hT
        · exact ⟨_, rfl⟩
        · simp at hT
        · exact ⟨_, rfl⟩
        · exact ⟨_, rfl⟩)).2.1⟩

/-- C16 as stated fails for a `float64` column that is NaN (which `ParseFloat`
yields for the text `NaN`): `json.Marshal` rejects it, and `Encode` panics
without a write. -/
theorem C16_nan_is_not_encoded :
    Float64.nan.isNaN = true
    ∧ (JsonEncoder.Encode exampleFmt [("k", ⟨.Double, .Simple, .float64 Float64.nan⟩)]).writes = []
    ∧ (JsonEncoder.Encode exampleFmt [("k", ⟨.Double, .Simple, .float64 Float64.nan⟩)]).fault
        = some Fault.marshalError := by
  decide

/-- C16 (JSON line), amended.  If no `float64` column of the record is NaN or
infinite, `JsonEncoder.Encode` does not panic and performs exactly one write:
the text `json.Marshal` gives for the map from each alias of the record to its
column's value alone (no type, no treatment), followed by one newline; so a
decoder that inverts `json.Marshal` on that map yields, from the write without
its newline, exactly that map.  If some `float64` column is NaN or infinite,
`Encode` panics without a write. -/
theorem C16_json_line (fmt : Fmt) (out : Record) :
    ((∀ kc ∈ out, kc.2.Value.unsupported = false) →
      JsonEncoder.Encode fmt out
        = ⟨[fmt.jsonText (out.map (fun kc => (kc.1, kc.2.Value))) ++ "\n"], [], none⟩
      ∧ (out.map (fun kc => (kc.1, kc.2.Value))).map (fun kv => kv.1) = out.map (fun kc => kc.1)
      ∧ (out.map (fun kc => (kc.1, kc.2.Value))).map (fun kv => kv.2)
          = out.map (fun kc => kc.2.Value)
      ∧ ∀ decode : String → Option (List (String × Value)),
          decode (fmt.jsonText (out.map (fun kc => (kc.1, kc.2.Value))))
            = some (out.map (fun kc => (kc.1, kc.2.Value))) →
          ∃ body, (JsonEncoder.Encode fmt out).writes = [body ++ "\n"]
            ∧ decode body = some (out.map (fun kc => (kc.1, kc.2.Value))))
    ∧ ((∃ kc ∈ out, kc.2.Value.unsupported = true) →
      JsonEncoder.Encode fmt out = ⟨[], [], some .marshalError⟩) := by
  constructor
  · intro h
    have hany : (out.map (fun kc => (kc.1, kc.2.Value))).any (fun kv => kv.2.unsupported)
        = false := by
      rw [List.any_eq_false]
      intro kv hkv
      obtain ⟨kc, hkc, rfl⟩ := List.mem_map.mp hkv
      simp [h kc hkc]
    have henc : JsonEncoder.Encode fmt out
        = ⟨[fmt.jsonText (out.map (fun kc => (kc.1, kc.2.Value))) ++ "\n"], [], none⟩ := by
      unfold JsonEncoder.Encode jsonMarshal
      simp only [hany, Bool.false_eq_true, if_false]
    refine ⟨henc, by simp, by simp, ?_⟩
    intro decode hd
    exact ⟨_, by rw [henc], hd⟩
  · rintro ⟨kc, hkc, hu⟩
    have hany : (out.map (fun kc => (kc.1, kc.2.Value))).any (fun kv => kv.2.unsupported)
        = true := by
      rw [List.any_eq_true]
      exact ⟨(kc.1, kc.2.Value), List.mem_map.mpr ⟨kc, hkc, rfl⟩, hu⟩
    unfold JsonEncoder.Encode jsonMarshal
    simp only [hany, if_true]

/-- C16 at the spec's input: the synthetic columns of the example parser and
`k` holding the string `x`; the one write is the object with `"k":"x"` and the
five synthetic keys, values only, and a newline. -/
theorem C16_json_line_witness :
    (JsonEncoder.Encode exampleFmt ((synthetic exampleLib (exampleWorld patB [] 10)).set "k"
        ⟨.String, .Simple, .string "x"⟩)).writes
      = ["\x7b\"_file\":\"f\",\"_group\":\"g\",\"_hostname\":\"h\",\"_offset\":0,\"_time\":0,\"k\":\"x\"\x7d\n"]
    ∧ JsonEncoder.Encode exampleFmt ((synthetic exampleLib (exampleWorld patB [] 10)).set "k"
        ⟨.String, .Simple, .string "x"⟩)
      = ⟨[exampleFmt.jsonText (((synthetic exampleLib (exampleWorld patB [] 10)).set "k"
          ⟨.String, .Simple, .string "x"⟩).map (fun kc => (kc.1, kc.2.Value))) ++ "\n"], [], none⟩ :=
  ⟨by decide,
   ((C16_json_line exampleFmt ((synthetic exampleLib (exampleWorld patB [] 10)).set "k"
      ⟨.String, .Simple, .string "x"⟩)).1 (by decide)).1⟩

/-- C20 (statsd totality).  `StatsdEncoder.Encode` completes without a panic
exactly when every column with treatment Metric holds a `float64` value, and
its only panic is the failed type assertion.  A record with a Metric column
holding an `int64` makes it panic; such is the record `Consume` builds from an
Integer field declared with treatment Metric (pattern `(7)`, chunk `7`), and
so is every record `Consume` hands off that has a column of type Integer or
Timestamp with treatment Metric. -/
theorem C20_statsd_totality (fmt : Fmt) (r : Record) :
    ((StatsdEncoder.Encode fmt r).fault = none
      ↔ ∀ kc ∈ r, kc.2.Treatment = .Metric → ∃ x, kc.2.Value = .float64 x)
    ∧ ((StatsdEncoder.Encode fmt r).fault = none
        ∨ (StatsdEncoder.Encode fmt r).fault = some .typeAssertion)
    ∧ (∀ (k : String) (t : FieldType) (n : Int), (k, ⟨t, .Metric, .int64 n⟩) ∈ r →
        (StatsdEncoder.Encode fmt r).fault = some .typeAssertion)
    ∧ (Consume decimalLib 1 (exampleWorld patGroupSeven [intField "n" 1 .Metric] 10)
        "7".data).world.parser.output.map (fun rec => rec.get "n")
        = [some ⟨.Integer, .Metric, .int64 7⟩]
    ∧ (Consume decimalLib 1 (exampleWorld patGroupSeven [intField "n" 1 .Metric] 10)
        "7".data).world.parser.output.map (fun rec => (StatsdEncoder.Encode fmt rec).fault)
        = [some .typeAssertion]
    ∧ (∀ (lib : Lib) (fuel : Nat) (w : World) (bytes : List Byte), w.parser.output = [] →
        ∀ rec ∈ (Consume lib fuel w bytes).world.parser.output, ∀ kc ∈ rec,
          kc.2.Typ = .Integer ∨ kc.2.Typ = .Timestamp → kc.2.Treatment = .Metric →
          (StatsdEncoder.Encode fmt rec).fault = some .typeAssertion) := by
  obtain ⟨h1, h2⟩ := StatsdEncoder_fault fmt r
  refine ⟨h1, h2, ?_, by decide, rfl, ?_⟩
  · intro k t n hmem
    rcases h2 with h | h
    · obtain ⟨x, hx⟩ := h1.mp h (k, ⟨t, .Metric, .int64 n⟩) hmem rfl
      simp at hx
    · exact h
  · intro lib fuel w bytes h0 rec hrec kc hkc hT hM
    have hk := Consume_kindsOK lib fuel w bytes (by rw [h0]; intro x hx; simp at hx)
      rec hrec kc hkc
    obtain ⟨g1, g2⟩ := StatsdEncoder_fault fmt rec
    rcases g2 with g | g
    · obtain ⟨x, hx⟩ := g1.mp g kc hkc hM
      rcases hk with hk | hk
      · unfold Column.kindMatches at hk
        rw [hx] at hk
        rcases hT with hT | hT <;> rw [hT] at hk <;> simp at hk
      · unfold Column.hashShaped at hk
        rw [hx] at hk
        rcases hT with hT | hT <;> rw [hT] at hk <;> simp at hk
    · exact g

end Dendrite
